import Mathlib

/-!
Shallow embedding of the core of the `unfold` JSON viewer (Rust):
the tree arena (`src/parser/tree.rs`, `src/parser/node.rs`), the builder
(`src/parser/builder.rs`), the search engine (`src/search.rs`, duplicated in
`src/main.rs`), the row flattener and virtual window (`src/main.rs`), and the
JSON export (`src/json_export.rs`).

Machine integers (`usize`) are modelled as `Nat`; `f32` geometry values are
modelled as `Rat`.  JSON numbers are stored as `f64` in the Rust code and are
only ever observed through Rust's `f64::to_string`; the model therefore keeps
the printed decimal string itself as the number payload.
-/

/-- Model of `serde_json::Value` (the builder's input).  `jnum` carries the
decimal string that Rust's `f64::to_string` prints for the stored number. -/
inductive JVal : Type where
  | jnull : JVal
  | jbool : Bool → JVal
  | jnum : String → JVal
  | jstr : String → JVal
  | jarr : List JVal → JVal
  | jobj : List (String × JVal) → JVal

/-- Source `JsonValue` from `src/parser/node.rs`.  `number` carries the printed form
of the `f64` (see module comment). -/
inductive JsonValue : Type where
  | null : JsonValue
  | bool : Bool → JsonValue
  | number : String → JsonValue
  | string : String → JsonValue
  | array : JsonValue
  | object : JsonValue
deriving DecidableEq

/-- Source `JsonNode` from `src/parser/node.rs`, with the `expanded` flag that
`builder.rs` initialises and `tree.rs` toggles. -/
structure JsonNode : Type where
  key : Option String
  value : JsonValue
  depth : Nat
  children : List Nat
  expanded : Bool
deriving DecidableEq

/-- Modelled from the spec: `JsonNode::is_expandable` is called by `tree.rs`
and `main.rs` but its definition is not among the sources; spec §4.1 guards
expansion toggling to containers (Array/Object). -/
def JsonNode.is_expandable (n : JsonNode) : Bool :=
  match n.value with
  | .array => true
  | .object => true
  | _ => false

/-- Source `JsonTree` from `src/parser/tree.rs`: a flat arena plus a root index. -/
structure JsonTree : Type where
  nodes : List JsonNode
  root_index : Nat
deriving DecidableEq

/-- Source `JsonTree::new`. -/
def JsonTree.new : JsonTree := { nodes := [], root_index := 0 }

/-- Source `JsonTree::add_node`: append and return the assigned index. -/
def JsonTree.add_node (t : JsonTree) (node : JsonNode) : JsonTree × Nat :=
  ({ t with nodes := t.nodes ++ [node] }, t.nodes.length)

/-- Source `JsonTree::set_root`. -/
def JsonTree.set_root (t : JsonTree) (index : Nat) : JsonTree :=
  { t with root_index := index }

/-- Source `JsonTree::get_node`: bounds-checked read. -/
def JsonTree.get_node (t : JsonTree) (index : Nat) : Option JsonNode :=
  t.nodes[index]?

/-- Source `JsonTree::node_count`. -/
def JsonTree.node_count (t : JsonTree) : Nat :=
  t.nodes.length

/-- Source `JsonTree::root`. -/
def JsonTree.root (t : JsonTree) : Option JsonNode :=
  t.get_node t.root_index

/-- Source `JsonTree::toggle_expanded`: flip `expanded` when the node exists and is
expandable; otherwise a silent no-op. -/
def JsonTree.toggle_expanded (t : JsonTree) (index : Nat) : JsonTree :=
  match t.nodes[index]? with
  | some node =>
      if node.is_expandable then
        { t with nodes := t.nodes.set index { node with expanded := !node.expanded } }
      else t
  | none => t

/-- Modelled from the spec: `JsonTree::set_expanded` is called from `main.rs`
but its definition is not among the sources; spec §4.1: explicit set with the
same container-only guard as `toggle_expanded`. -/
def JsonTree.set_expanded (t : JsonTree) (index : Nat) (e : Bool) : JsonTree :=
  match t.nodes[index]? with
  | some node =>
      if node.is_expandable then
        { t with nodes := t.nodes.set index { node with expanded := e } }
      else t
  | none => t

mutual

/-- Source `build_node` from `src/parser/builder.rs`.  Children are built first
(so they receive smaller indices than their parent), then the node itself is
appended; returns the updated tree and the new node's index. -/
def build_node (tree : JsonTree) (key : Option String) (value : JVal)
    (depth : Nat) : JsonTree × Nat :=
  match value with
  | .jnull =>
      tree.add_node ⟨key, .null, depth, [], false⟩
  | .jbool b =>
      tree.add_node ⟨key, .bool b, depth, [], false⟩
  | .jnum s =>
      tree.add_node ⟨key, .number s, depth, [], false⟩
  | .jstr s =>
      tree.add_node ⟨key, .string s, depth, [], false⟩
  | .jarr items =>
      let p := build_arr_children tree items depth 0
      p.1.add_node ⟨key, .array, depth, p.2, false⟩
  | .jobj fields =>
      let p := build_obj_children tree fields depth
      p.1.add_node ⟨key, .object, depth, p.2, false⟩

/-- Array items of `build_node`: each child is built with the positional
synthetic key `[i]` and depth one greater than its parent. -/
def build_arr_children (tree : JsonTree) (items : List JVal) (depth : Nat)
    (i : Nat) : JsonTree × List Nat :=
  match items with
  | [] => (tree, [])
  | v :: rest =>
      let p := build_node tree (some ("[" ++ toString i ++ "]")) v (depth + 1)
      let q := build_arr_children p.1 rest depth (i + 1)
      (q.1, p.2 :: q.2)

/-- Object members of `build_node`: each child is built with its member key
and depth one greater than its parent. -/
def build_obj_children (tree : JsonTree) (fields : List (String × JVal))
    (depth : Nat) : JsonTree × List Nat :=
  match fields with
  | [] => (tree, [])
  | (k, v) :: rest =>
      let p := build_node tree (some k) v (depth + 1)
      let q := build_obj_children p.1 rest depth
      (q.1, p.2 :: q.2)

end

/-- Source `build_tree` from `src/parser/builder.rs`. -/
def build_tree (json : JVal) : JsonTree :=
  let p := build_node JsonTree.new none json 0
  p.1.set_root p.2

/-- Substring test at successive positions; `strContains` below is Rust's
`str::contains` for a plain-string pattern. -/
def strContainsAux (q : List Char) : List Char → Bool
  | [] => q.isPrefixOf ([] : List Char)
  | c :: rest => q.isPrefixOf (c :: rest) || strContainsAux q rest

/-- Rust `text.contains(query)`: substring containment. -/
def strContains (text query : String) : Bool :=
  strContainsAux query.toList text.toList

/-- Rust `str::to_lowercase`, modelled as per-character lowercasing. -/
def to_lowercase (s : String) : String :=
  String.mk (s.toList.map Char.toLower)

/-- The external `regex` crate, as seen by `search_nodes`: compiling a pattern
either fails with a displayable error or yields an `is_match` predicate. -/
structure RegexEngine : Type where
  compile : String → Except String (String → Bool)

/-- The key test of the search loop (`src/search.rs` lines 52-56): a node
matches through its key when it has one and the matcher accepts it. -/
def search_key_match (m : String → Bool) (node : JsonNode) : Bool :=
  match node.key with
  | some k => m k
  | none => false

/-- The value test of the search loop (`src/search.rs` lines 59-65): scalar
values are matched through their printed form, containers never match. -/
def search_value_match (m : String → Bool) (node : JsonNode) : Bool :=
  match node.value with
  | .string s => m s
  | .number n => m n
  | .bool b => m (if b then "true" else "false")
  | .null => m "null"
  | _ => false

/-- The matcher closure of `search_nodes` (`src/search.rs` lines 38-46). -/
def search_matcher (rx : Option (String → Bool)) (query : String)
    (case_sensitive : Bool) : String → Bool :=
  fun text =>
    match rx with
    | some re => re text
    | none =>
        if case_sensitive then strContains text query
        else strContains (to_lowercase text) (to_lowercase query)

/-- Source `search_nodes` from `src/search.rs` (duplicated verbatim in
`src/main.rs`).  The regex engine is an explicit parameter standing for the
external `regex` crate. -/
def search_nodes (eng : RegexEngine) (tree : JsonTree) (query : String)
    (case_sensitive : Bool) (use_regex : Bool) : List Nat × Option String :=
  if query = "" then ([], none)
  else
    let compiled : Except String (Option (String → Bool)) :=
      if use_regex then
        match eng.compile (if case_sensitive then query else "(?i)" ++ query) with
        | .ok r => .ok (some r)
        | .error e => .error e
      else .ok none
    match compiled with
    | .error e => ([], some ("Invalid regex: " ++ e))
    | .ok rx =>
        let m := search_matcher rx query case_sensitive
        ((List.range tree.node_count).filterMap (fun i =>
          match tree.get_node i with
          | none => none
          | some node =>
              if search_key_match m node then some i
              else if search_value_match m node then some i
              else none), none)

/-- Source `ValueType` from `src/flat_row.rs`. -/
inductive ValueType : Type where
  | null : ValueType
  | bool : ValueType
  | number : ValueType
  | string : ValueType
  | bracket : ValueType
  | key : ValueType
deriving DecidableEq

/-- Source `FlatRow` from `src/flat_row.rs`.  The source field `prefix` is renamed
`pfx` (`prefix` is reserved in Lean). -/
structure FlatRow : Type where
  node_index : Nat
  pfx : String
  key : Option String
  value_display : String
  value_type : ValueType
  is_expandable : Bool
  is_expanded : Bool
  row_index : Nat
  path : String
deriving DecidableEq

/-- Source `ROW_HEIGHT` from `src/flat_row.rs` (an `f32`, modelled as a rational). -/
def ROW_HEIGHT : Rat := 16

/-- Source `BUFFER_ROWS` from `src/flat_row.rs`. -/
def BUFFER_ROWS : Nat := 5

/-- Source `App::flatten_node` from `src/main.rs`.  The Rust recursion over child
nodes is modelled with a fuel argument consumed once per tree level; the
canonical call in `flatten_visible_nodes` passes `node_count` fuel, which is
sufficient whenever children have smaller indices than their parent (true of
every built tree).  The child loop is the source's `enumerate` fold. -/
def flatten_node (fuel : Nat) (tree : JsonTree) (index : Nat)
    (rows : List FlatRow) (pfx : String) (is_last : Bool) (is_root : Bool)
    (current_path : String) : List FlatRow :=
  match fuel with
  | 0 => rows
  | fuel + 1 =>
    match tree.get_node index with
    | none => rows
    | some node =>
      let prefixes : String × String :=
        if is_root then ("", "")
        else if node.depth = 1 then
          ((if is_last then "└" else "├"), (if is_last then "   " else "│  "))
        else
          (pfx ++ (if is_last then "└" else "├"),
           if is_last then pfx ++ "   " else pfx ++ "│  ")
      let display : String × ValueType :=
        match node.value with
        | .null => ("null", .null)
        | .bool b => ((if b then "true" else "false"), .bool)
        | .number n => (n, .number)
        | .string s => ("\"" ++ s ++ "\"", .string)
        | .array => if node.expanded then (":", .bracket) else ("[...]", .key)
        | .object => if node.expanded then (":", .bracket) else ("\x7b...\x7d", .key)
      let row : FlatRow :=
        ⟨index, prefixes.1, node.key, display.1, display.2,
         node.is_expandable, node.expanded, rows.length, current_path⟩
      let rows1 := rows ++ [row]
      if node.expanded then
        let is_array : Bool := match node.value with | .array => true | _ => false
        let child_count := node.children.length
        node.children.enum.foldl (fun acc p =>
          let is_last_child : Bool := decide (p.1 = child_count - 1)
          let child_path :=
            if is_array then current_path ++ "[" ++ toString p.1 ++ "]"
            else
              match tree.get_node p.2 with
              | some child =>
                  let k := child.key.getD ""
                  if current_path = "" then k else current_path ++ "." ++ k
              | none => current_path
          flatten_node fuel tree p.2 acc prefixes.2 is_last_child false child_path)
          rows1
      else rows1

/-- Source `App::flatten_visible_nodes` from `src/main.rs`: start from the root's
children (the root itself is never rendered). -/
def flatten_visible_nodes (tree : JsonTree) : List FlatRow :=
  match tree.get_node tree.root_index with
  | none => []
  | some root =>
      let root_is_array : Bool := match root.value with | .array => true | _ => false
      let child_count := root.children.length
      root.children.enum.foldl (fun rows p =>
        let is_last : Bool := decide (p.1 = child_count - 1)
        let child_path :=
          if root_is_array then "[" ++ toString p.1 ++ "]"
          else
            match tree.get_node p.2 with
            | some child => (child.key.getD "")
            | none => ""
        flatten_node tree.node_count tree p.2 rows "" is_last false child_path)
        []

/-- Source `first_visible` in `App::view` (`src/main.rs` line 2046): the scroll
offset divided by the row height, floored and clamped to `usize`. -/
def first_visible_row (scroll_offset : Rat) : Nat :=
  (Int.floor (scroll_offset / ROW_HEIGHT)).toNat

/-- Source `visible_count` in `App::view` (`src/main.rs` line 2047). -/
def visible_row_count (viewport_height : Rat) : Nat :=
  (Int.ceil (viewport_height / ROW_HEIGHT)).toNat + 1

/-- The virtual window of `App::view` (`src/main.rs` lines 2043-2051):
`start` is a saturating subtraction, `end` is clamped to the row total. -/
def visible_range (total_rows : Nat) (scroll_offset viewport_height : Rat) :
    Nat × Nat :=
  let first_visible := first_visible_row scroll_offset
  let visible_count := visible_row_count viewport_height
  (first_visible - BUFFER_ROWS,
   min (first_visible + visible_count + BUFFER_ROWS) total_rows)

/-- Rust `String::replace` for a single-character pattern. -/
def replace_char (s : String) (c : Char) (r : String) : String :=
  String.mk ((s.toList.map (fun d => if d = c then r.toList else [d])).flatten)

/-- Source `escape_json_string` from `src/json_export.rs`: the source's chain of
five `replace` calls. -/
def escape_json_string (s : String) : String :=
  replace_char (replace_char (replace_char (replace_char (replace_char
    s '\\' "\\\\") '"' "\\\"") '\n' "\\n") '\r' "\\r") '\t' "\\t"

/-- Source `node_to_json_string_internal` from `src/json_export.rs`, with fuel
consumed once per tree level (the canonical calls pass `node_count`, enough
for every built tree). -/
def node_to_json_string_internal (fuel : Nat) (tree : JsonTree)
    (node_index : Nat) (minified : Bool) : String :=
  match fuel with
  | 0 => ""
  | fuel + 1 =>
    let sep := if minified then "," else ", "
    let kv_sep := if minified then ":" else ": "
    match tree.get_node node_index with
    | none => ""
    | some node =>
      match node.value with
      | .null => "null"
      | .bool b => if b then "true" else "false"
      | .number n => n
      | .string s => "\"" ++ escape_json_string s ++ "\""
      | .array =>
          let items := node.children.map (fun child_idx =>
            node_to_json_string_internal fuel tree child_idx minified)
          "[" ++ String.intercalate sep items ++ "]"
      | .object =>
          let items := node.children.filterMap (fun child_idx =>
            (tree.get_node child_idx).map (fun child =>
              "\"" ++ child.key.getD "" ++ "\"" ++ kv_sep ++
                node_to_json_string_internal fuel tree child_idx minified))
          "\x7b" ++ String.intercalate sep items ++ "\x7d"

/-- Source `node_to_json_string` from `src/json_export.rs` (spaced separators). -/
def node_to_json_string (tree : JsonTree) (node_index : Nat) : String :=
  node_to_json_string_internal tree.node_count tree node_index false

/-- Source `node_to_json_string_minified` from `src/json_export.rs`. -/
def node_to_json_string_minified (tree : JsonTree) (node_index : Nat) : String :=
  node_to_json_string_internal tree.node_count tree node_index true

/-- The logical JSON value of a node's subtree (the reference semantics the
spec's round-trip property compares against). -/
def logical_value (fuel : Nat) (tree : JsonTree) (node_index : Nat) :
    Option JVal :=
  match fuel with
  | 0 => none
  | fuel + 1 =>
    match tree.get_node node_index with
    | none => none
    | some node =>
      match node.value with
      | .null => some .jnull
      | .bool b => some (.jbool b)
      | .number n => some (.jnum n)
      | .string s => some (.jstr s)
      | .array =>
          (node.children.mapM (fun c => logical_value fuel tree c)).map .jarr
      | .object =>
          (node.children.mapM (fun c =>
            match tree.get_node c with
            | none => none
            | some child =>
                (logical_value fuel tree c).map (fun v => (child.key.getD "", v)))).map
            .jobj

/-- Modelled from the spec: whitespace skipping of the external "standard
JSON parser" (spec §6 treats the JSON text parser as a black box). -/
def skip_ws : List Char → List Char
  | [] => []
  | c :: rest =>
      if c = ' ' ∨ c = '\n' ∨ c = '\t' ∨ c = '\r' then skip_ws rest
      else c :: rest

/-- Modelled from the spec: string-body scanning of the standard JSON
parser.  Reads characters up to an unescaped closing quote, decoding the
escapes the exporter can produce. -/
def parse_string_body : List Char → Option (String × List Char)
  | [] => none
  | '"' :: rest => some ("", rest)
  | '\\' :: e :: rest =>
      (match e with
       | 'n' => some '\n'
       | 'r' => some '\r'
       | 't' => some '\t'
       | '"' => some '"'
       | '\\' => some '\\'
       | '/' => some '/'
       | _ => none).bind (fun d =>
        (parse_string_body rest).map
          (fun (p : String × List Char) => (String.mk (d :: p.1.toList), p.2)))
  | '\\' :: [] => none
  | c :: rest =>
      (parse_string_body rest).map (fun p => (String.mk (c :: p.1.toList), p.2))

/-- Digit run of the standard JSON parser's number scanner. -/
def take_digits : List Char → List Char × List Char
  | [] => ([], [])
  | c :: rest =>
      if c.isDigit then
        let p := take_digits rest
        (c :: p.1, p.2)
      else ([], c :: rest)

/-- Modelled from the spec: number scanning of the standard JSON parser for
the numeral shape Rust's `f64` Display produces (`-?digits(.digits)?`); the
numeral is kept as its text, matching the `JVal.jnum` representation. -/
def parse_number : List Char → Option (String × List Char)
  | [] => none
  | c :: rest =>
      let signed : Option (List Char × List Char) :=
        if c = '-' then
          match take_digits rest with
          | ([], _) => none
          | (ds, rest') => some ('-' :: ds, rest')
        else if c.isDigit then
          match take_digits (c :: rest) with
          | (ds, rest') => some (ds, rest')
        else none
      signed.bind (fun (p : List Char × List Char) =>
        match p.2 with
        | '.' :: after =>
            (match take_digits after with
             | ([], _) => none
             | (fs, rest') => some (String.mk (p.1 ++ '.' :: fs), rest'))
        | _ => some (String.mk p.1, p.2))

mutual

/-- Modelled from the spec: value production of the standard JSON parser
(black box per spec §6).  Lenient about unescaped control characters inside
strings; strict about structure.  Returns the value and remaining input. -/
def parse_value : Nat → List Char → Option (JVal × List Char)
  | 0, _ => none
  | fuel + 1, s =>
    match skip_ws s with
    | [] => none
    | c :: rest =>
        if c = 'n' then
          match rest with
          | 'u' :: 'l' :: 'l' :: rest' => some (.jnull, rest')
          | _ => none
        else if c = 't' then
          match rest with
          | 'r' :: 'u' :: 'e' :: rest' => some (.jbool true, rest')
          | _ => none
        else if c = 'f' then
          match rest with
          | 'a' :: 'l' :: 's' :: 'e' :: rest' => some (.jbool false, rest')
          | _ => none
        else if c = '"' then
          (parse_string_body rest).map (fun p => (.jstr p.1, p.2))
        else if c = '[' then
          match skip_ws rest with
          | ']' :: rest' => some (.jarr [], rest')
          | s' => (parse_arr_items fuel s').map (fun p => (.jarr p.1, p.2))
        else if c = '{' then
          match skip_ws rest with
          | '}' :: rest' => some (.jobj [], rest')
          | s' => (parse_obj_items fuel s').map (fun p => (.jobj p.1, p.2))
        else
          (parse_number (c :: rest)).map (fun p => (.jnum p.1, p.2))

/-- Array items after `[`, separated by commas, ended by `]`. -/
def parse_arr_items : Nat → List Char → Option (List JVal × List Char)
  | 0, _ => none
  | fuel + 1, s =>
      (parse_value fuel s).bind (fun p =>
        match skip_ws p.2 with
        | ']' :: rest => some ([p.1], rest)
        | ',' :: rest =>
            (parse_arr_items fuel rest).map (fun q => (p.1 :: q.1, q.2))
        | _ => none)

/-- Object members after `{`: quoted key, colon, value; separated by commas,
ended by `}`. -/
def parse_obj_items : Nat → List Char → Option (List (String × JVal) × List Char)
  | 0, _ => none
  | fuel + 1, s =>
      match skip_ws s with
      | '"' :: rest =>
          (parse_string_body rest).bind (fun kp =>
            match skip_ws kp.2 with
            | ':' :: rest' =>
                (parse_value fuel rest').bind (fun p =>
                  match skip_ws p.2 with
                  | '}' :: rest'' => some ([(kp.1, p.1)], rest'')
                  | ',' :: rest'' =>
                      (parse_obj_items fuel rest'').map (fun q =>
                        ((kp.1, p.1) :: q.1, q.2))
                  | _ => none)
            | _ => none)
      | _ => none

end

/-- Modelled from the spec: the standard JSON parser applied to a whole
document: a single value, possibly surrounded by whitespace and nothing
else. -/
def parse_json (s : String) : Option JVal :=
  (parse_value (s.length + 1) s.toList).bind (fun p =>
    match skip_ws p.2 with
    | [] => some p.1
    | _ => none)

/-- Modelled from the spec: `JsonTree::get_path_to_node` is called from
`main.rs` but is not among the sources; spec §4.1: a downward search from the
root returning the ancestor chain ending in the target.  Fuel bounds the
descent depth. -/
def path_to_node_aux (fuel : Nat) (t : JsonTree) (cur target : Nat) :
    Option (List Nat) :=
  match fuel with
  | 0 => none
  | fuel + 1 =>
    if cur = target then some [cur]
    else
      match t.get_node cur with
      | none => none
      | some node =>
          node.children.findSome? (fun c =>
            (path_to_node_aux fuel t c target).map (fun p => cur :: p))

/-- Modelled from the spec: see `path_to_node_aux`; a missing target yields
the empty path. -/
def JsonTree.get_path_to_node (t : JsonTree) (target : Nat) : List Nat :=
  (path_to_node_aux (t.node_count + 1) t t.root_index target).getD []

/-- The fields of the `App` state (`src/main.rs`) read or written by
`run_search` and its callees.  The `HashSet` of matches is modelled by the
collected list. -/
structure SearchAppState : Type where
  tree : Option JsonTree
  flat_rows : List FlatRow
  search_query : String
  search_case_sensitive : Bool
  search_use_regex : Bool
  search_results : List Nat
  search_result_index : Option Nat
  search_matches : List Nat
  search_regex_error : Option String
  viewport_height : Rat

/-- Source `App::scroll_to_node` from `src/main.rs`: the returned scroll task is
modelled by the absolute offset it would scroll to (`none` = `Task::none()`). -/
def scroll_to_node (st : SearchAppState) (target_index : Nat) : Option Rat :=
  match st.flat_rows.findIdx? (fun r => r.node_index == target_index) with
  | some row_pos =>
      some (max ((row_pos : Rat) * ROW_HEIGHT - st.viewport_height / 2) 0)
  | none => none

/-- Source `App::expand_to_node` from `src/main.rs`: expand every node on the path
to the target except the target itself. -/
def expand_to_node (st : SearchAppState) (target_index : Nat) : SearchAppState :=
  match st.tree with
  | some tree =>
      let path := tree.get_path_to_node target_index
      { st with tree := some (path.foldl (fun t node_index =>
          if node_index ≠ target_index then t.set_expanded node_index true else t)
          tree) }
  | none => st

/-- Source `App::run_search` from `src/main.rs`: run the search with the current
query and options and update the state; returns the new state and the scroll
task (modelled as in `scroll_to_node`). -/
def run_search (eng : RegexEngine) (st : SearchAppState) :
    SearchAppState × Option Rat :=
  if st.search_query = "" then
    ({ st with search_results := [], search_result_index := none,
               search_matches := [], search_regex_error := none }, none)
  else
    match st.tree with
    | some tree =>
        let p := search_nodes eng tree st.search_query
          st.search_case_sensitive st.search_use_regex
        let st1 := { st with search_regex_error := p.2, search_results := p.1,
                             search_matches := p.1 }
        if p.1.isEmpty then
          ({ st1 with search_result_index := none,
                      flat_rows := flatten_visible_nodes tree }, none)
        else
          let target := p.1.headD 0
          let st2 := expand_to_node { st1 with search_result_index := some 0 } target
          let st3 := { st2 with flat_rows :=
            match st2.tree with
            | some t => flatten_visible_nodes t
            | none => st2.flat_rows }
          (st3, scroll_to_node st3 target)
    | none => (st, none)

/-! ### Helper definitions shared by several claims -/

/-- A concrete stand-in for the regex crate rejecting every pattern, used to
instantiate theorems about the compile-failure path. -/
def failingEngine : RegexEngine :=
  ⟨fun _ => .error "unclosed character class"⟩

/-- Everything of a node except its `expanded` flag. -/
def JsonNode.drop_expanded (n : JsonNode) :
    Option String × JsonValue × Nat × List Nat :=
  (n.key, n.value, n.depth, n.children)

/-- A `filterMap` that only ever keeps the element itself produces a sublist. -/
theorem filterMap_some_imp_sublist (f : Nat → Option Nat)
    (hf : ∀ i x, f i = some x → x = i) :
    ∀ l : List Nat, (l.filterMap f).Sublist l := by
  intro l
  induction l with
  | nil => simp
  | cons a l ih =>
    rw [List.filterMap_cons]
    cases h : f a with
    | none => exact ih.cons a
    | some x =>
        obtain rfl : x = a := hf a x h
        exact ih.cons₂ x

/-! ### C8: toggle_expanded frame effect -/

/-- Shared helper: the frame facts about `toggle_expanded` (used by the
expansion-independence development as well). -/
theorem toggle_expanded_shape (t : JsonTree) (index : Nat) :
    (t.toggle_expanded index).node_count = t.node_count ∧
    (t.toggle_expanded index).root_index = t.root_index ∧
    (∀ j, ((t.toggle_expanded index).get_node j).map JsonNode.drop_expanded =
      (t.get_node j).map JsonNode.drop_expanded) ∧
    (∀ j, j ≠ index → (t.toggle_expanded index).get_node j = t.get_node j) := by
  cases h : t.nodes[index]? with
  | none =>
      have heq : t.toggle_expanded index = t := by
        unfold JsonTree.toggle_expanded
        rw [h]
      rw [heq]
      exact ⟨rfl, rfl, fun _ => rfl, fun _ _ => rfl⟩
  | some node =>
    by_cases he : node.is_expandable
    · have heq : t.toggle_expanded index = { t with
          nodes := t.nodes.set index { node with expanded := !node.expanded } } := by
        unfold JsonTree.toggle_expanded
        rw [h]
        simp [he]
      rw [heq]
      refine ⟨by simp [JsonTree.node_count], rfl, ?_, ?_⟩
      · intro j
        by_cases hj : j = index
        · subst hj
          simp [JsonTree.get_node, List.getElem?_set_self', h,
            JsonNode.drop_expanded]
        · simp [JsonTree.get_node, List.getElem?_set_ne (Ne.symm hj)]
      · intro j hj
        simp [JsonTree.get_node, List.getElem?_set_ne (Ne.symm hj)]
    · have heq : t.toggle_expanded index = t := by
        unfold JsonTree.toggle_expanded
        rw [h]
        simp [he]
      rw [heq]
      exact ⟨rfl, rfl, fun _ => rfl, fun _ _ => rfl⟩

/-- C8: `toggle_expanded` modifies at most the `expanded` flag of the node at
the given index: the node count, the root index, every node's key, value,
depth and children list, and every other node entirely, are unchanged. -/
theorem toggle_expanded_frame (t : JsonTree) (index : Nat) :
    (t.toggle_expanded index).node_count = t.node_count ∧
    (t.toggle_expanded index).root_index = t.root_index ∧
    (∀ j, ((t.toggle_expanded index).get_node j).map JsonNode.drop_expanded =
      (t.get_node j).map JsonNode.drop_expanded) ∧
    (∀ j, j ≠ index → (t.toggle_expanded index).get_node j = t.get_node j) :=
  toggle_expanded_shape t index

/-- Witness for C8 at a concrete tree and index. -/
theorem toggle_expanded_frame_witness :
    ((build_tree (.jobj [("a", .jnum "1")])).toggle_expanded 1).get_node 0 =
      (build_tree (.jobj [("a", .jnum "1")])).get_node 0 :=
  (toggle_expanded_frame (build_tree (.jobj [("a", .jnum "1")])) 1).2.2.2 0
    (by decide)

/-! ### C7: regex failure handling in search_nodes -/

/-- C7: when the compiled pattern is rejected by the regex engine, search
with `use_regex = true` returns the empty match list together with a
descriptive error (the total Lean function witnesses absence of panics), and
the empty query yields the empty list with no error. -/
theorem search_nodes_regex_failure_safe (eng : RegexEngine) (tree : JsonTree)
    (query : String) (case_sensitive : Bool) (e : String)
    (hq : query ≠ "")
    (hc : eng.compile (if case_sensitive then query else "(?i)" ++ query) =
      .error e) :
    search_nodes eng tree query case_sensitive true =
      ([], some ("Invalid regex: " ++ e)) ∧
    ∀ ur cs, search_nodes eng tree "" cs ur = ([], none) := by
  constructor
  · unfold search_nodes
    simp [hq, hc]
  · intro ur cs
    unfold search_nodes
    simp

/-- Witness for C7: a concrete failing pattern on a concrete tree. -/
theorem search_nodes_regex_failure_safe_witness :
    search_nodes failingEngine (build_tree .jnull) "[invalid" true true =
      ([], some ("Invalid regex: " ++ "unclosed character class")) :=
  (search_nodes_regex_failure_safe failingEngine (build_tree .jnull)
    "[invalid" true "unclosed character class" (by decide) rfl).1

/-! ### C4: array-item keys (code bug: the builder stores synthetic keys) -/

/-- C4: contrary to the claim (and to the doc comment on `JsonNode.key`, which
says the key is `None` for array items), the builder stores the positional
synthetic key `"[0]"` as the `key` of an array item node. -/
theorem build_array_item_key_stored :
    (build_tree (.jarr [.jnum "1"])).get_node 0 =
      some ⟨some "[0]", .number "1", 1, [], false⟩ ∧
    ((build_tree (.jarr [.jnum "1"])).get_node 0).map JsonNode.key ≠
      some none := by
  exact ⟨by decide, by decide⟩

/-! ### C5: virtual window row count bound -/

/-- C5 counterexample: with viewport height 17 (not a multiple of the row
height 16), scroll offset 80 and 100 total rows, the window spans 13 rows,
exceeding the claimed bound `viewport_height/row_height + 2*buffer_rows + 1 =
17/16 + 11`. -/
theorem visible_range_bound_counterexample :
    (visible_range 100 80 17).2 - (visible_range 100 80 17).1 = 13 ∧
    ¬ ((((visible_range 100 80 17).2 - (visible_range 100 80 17).1 : Nat) : Rat) ≤
        17 / 16 + 2 * 5 + 1) := by
  have h1 : first_visible_row 80 = 5 := by
    have : ((80 : Rat) / 16) = ((5 : Int) : Rat) := by norm_num
    simp [first_visible_row, ROW_HEIGHT, this]
  have h2 : visible_row_count 17 = 3 := by
    have : Int.ceil ((17 : Rat) / 16) = 2 := by
      rw [Int.ceil_eq_iff]
      norm_num
    simp [visible_row_count, ROW_HEIGHT, this]
  constructor
  · unfold visible_range
    rw [h1, h2]
    rfl
  · unfold visible_range
    rw [h1, h2]
    norm_num [BUFFER_ROWS]

/-- C5 amended: the window's `end - start` never exceeds
`ceil(viewport_height/row_height) + 2*buffer_rows + 1` (the `+1` of the
source's `visible_count`), regardless of total row count. -/
theorem visible_range_row_count_bound_ceil (total_rows : Nat)
    (scroll_offset viewport_height : Rat) :
    (visible_range total_rows scroll_offset viewport_height).2 -
      (visible_range total_rows scroll_offset viewport_height).1 ≤
      (Int.ceil (viewport_height / ROW_HEIGHT)).toNat + 2 * BUFFER_ROWS + 1 := by
  unfold visible_range visible_row_count BUFFER_ROWS
  generalize first_visible_row scroll_offset = fv
  generalize (Int.ceil (viewport_height / ROW_HEIGHT)).toNat = X
  simp only
  omega

/-! ### C9: search results strictly increasing -/

/-- C9: the match list returned by search is strictly increasing in node
index (hence duplicate-free: a node whose key and value both match is
reported exactly once). -/
theorem search_results_strictly_increasing (eng : RegexEngine)
    (tree : JsonTree) (query : String) (cs ur : Bool) :
    (search_nodes eng tree query cs ur).1.Pairwise (· < ·) := by
  unfold search_nodes
  by_cases hq : query = ""
  · simp [hq]
  · simp only [hq, if_false]
    cases hcomp : (if ur then
        match eng.compile (if cs then query else "(?i)" ++ query) with
        | .ok r => Except.ok (some r)
        | .error e => Except.error e
      else Except.ok (none : Option (String → Bool))) with
    | error e => simp
    | ok rx =>
        have hsub : ∀ f : Nat → Option Nat, (∀ i x, f i = some x → x = i) →
            ((List.range tree.node_count).filterMap f).Pairwise (· < ·) := by
          intro f hf
          exact List.Pairwise.sublist (filterMap_some_imp_sublist f hf _)
            (List.pairwise_lt_range _)
        apply hsub
        intro i x h
        cases hg : tree.get_node i with
        | none =>
            rw [hg] at h
            exact Option.noConfusion h
        | some node =>
            rw [hg] at h
            dsimp only at h
            split_ifs at h with h1 h2
            · exact (Option.some.inj h).symm
            · exact (Option.some.inj h).symm

/-! ### C3: malformed regex leaves tree untouched but clears results -/

/-- Shared helper: the exact result of `search_nodes` on a compile failure. -/
theorem search_nodes_compile_error_eq (eng : RegexEngine) (tree : JsonTree)
    (query : String) (cs : Bool) (e : String) (hq : query ≠ "")
    (hc : eng.compile (if cs then query else "(?i)" ++ query) = .error e) :
    search_nodes eng tree query cs true = ([], some ("Invalid regex: " ++ e)) := by
  unfold search_nodes
  simp [hq, hc]

/-- A concrete application state holding earlier search results, used to
exercise the malformed-pattern path of `run_search`. -/
def c3_prior_state : SearchAppState :=
  { tree := some (build_tree (.jobj [("name", .jstr "Unfold")])),
    flat_rows := flatten_visible_nodes (build_tree (.jobj [("name", .jstr "Unfold")])),
    search_query := "[invalid",
    search_case_sensitive := true,
    search_use_regex := true,
    search_results := [0],
    search_result_index := some 0,
    search_matches := [0],
    search_regex_error := none,
    viewport_height := 400 }

/-- C3 counterexample: a malformed pattern does not leave the previously
stored search results untouched — `run_search` overwrites them with the
empty list. -/
theorem run_search_error_clears_results :
    (run_search failingEngine c3_prior_state).1.search_results = [] ∧
    (run_search failingEngine c3_prior_state).1.search_results ≠
      c3_prior_state.search_results := by
  exact ⟨rfl, by decide⟩

/-- C3 amended: on a regex compile failure `run_search` stores the error
message, clears the results, match set and cursor, recomputes the rows from
the unchanged tree, and leaves the tree (hence all expansion state) and the
query untouched. -/
theorem run_search_error_state (eng : RegexEngine) (st : SearchAppState)
    (tree : JsonTree) (e : String)
    (htree : st.tree = some tree) (hq : st.search_query ≠ "")
    (hur : st.search_use_regex = true)
    (hc : eng.compile (if st.search_case_sensitive then st.search_query
        else "(?i)" ++ st.search_query) = .error e) :
    run_search eng st =
      ({ st with search_regex_error := some ("Invalid regex: " ++ e),
                 search_results := [], search_matches := [],
                 search_result_index := none,
                 flat_rows := flatten_visible_nodes tree }, none) := by
  have hs := search_nodes_compile_error_eq eng tree st.search_query
    st.search_case_sensitive e hq hc
  unfold run_search
  rw [if_neg hq, htree]
  simp only [hur, hs]
  rfl

/-- Witness for C3's amended theorem at the concrete prior state. -/
theorem run_search_error_state_witness :
    run_search failingEngine c3_prior_state =
      ({ c3_prior_state with
           search_regex_error :=
             some ("Invalid regex: " ++ "unclosed character class"),
           search_results := [], search_matches := [],
           search_result_index := none,
           flat_rows := flatten_visible_nodes
             (build_tree (.jobj [("name", .jstr "Unfold")])) }, none) :=
  run_search_error_state failingEngine c3_prior_state
    (build_tree (.jobj [("name", .jstr "Unfold")])) "unclosed character class"
    rfl (by decide) rfl rfl

/-! ### C6: export round-trip (code bug: object keys are not escaped) -/

/-- C6: the export of a subtree whose object key contains a quote is not
valid JSON — `node_to_json_string_internal` never escapes keys — so neither
the minified nor the spaced form parses back to the subtree's logical value
(which exists), falsifying the round-trip property at this input. -/
theorem export_unescaped_key_breaks_roundtrip :
    node_to_json_string_minified (build_tree (.jobj [("a\"b", .jnum "1")]))
      (build_tree (.jobj [("a\"b", .jnum "1")])).root_index =
        "\x7b\"a\"b\":1\x7d" ∧
    node_to_json_string (build_tree (.jobj [("a\"b", .jnum "1")]))
      (build_tree (.jobj [("a\"b", .jnum "1")])).root_index =
        "\x7b\"a\"b\": 1\x7d" ∧
    parse_json "\x7b\"a\"b\":1\x7d" = none ∧
    parse_json "\x7b\"a\"b\": 1\x7d" = none ∧
    logical_value (build_tree (.jobj [("a\"b", .jnum "1")])).node_count
      (build_tree (.jobj [("a\"b", .jnum "1")]))
      (build_tree (.jobj [("a\"b", .jnum "1")])).root_index =
        some (.jobj [("a\"b", .jnum "1")]) := by
  exact ⟨rfl, rfl, rfl, rfl, rfl⟩

/-! ### C10: export is independent of expansion state -/

/-- Two trees agree on everything except possibly the `expanded` flags.
The per-index quantifier is bounded so the relation stays decidable. -/
def same_except_expanded (t u : JsonTree) : Prop :=
  t.root_index = u.root_index ∧
  t.nodes.length = u.nodes.length ∧
  ∀ j, j < t.nodes.length →
    (t.get_node j).map JsonNode.drop_expanded =
      (u.get_node j).map JsonNode.drop_expanded

instance (t u : JsonTree) : Decidable (same_except_expanded t u) := by
  unfold same_except_expanded JsonTree.get_node
  exact @instDecidableAnd _ _ inferInstance
    (@instDecidableAnd _ _ inferInstance (Nat.decidableBallLT _ _))

/-- The bounded index quantifier extends to all indices. -/
theorem same_except_expanded_get (t u : JsonTree)
    (h : same_except_expanded t u) (j : Nat) :
    (t.get_node j).map JsonNode.drop_expanded =
      (u.get_node j).map JsonNode.drop_expanded := by
  obtain ⟨_, hlen, hin⟩ := h
  by_cases hj : j < t.nodes.length
  · exact hin j hj
  · have h1 : t.nodes[j]? = none := List.getElem?_eq_none (by omega)
    have h2 : u.nodes[j]? = none := List.getElem?_eq_none (by omega)
    simp [JsonTree.get_node, h1, h2]

/-- Shared helper: the serializer reads only keys, values and children, so
it cannot observe `expanded` flags. -/
theorem export_internal_congr (fuel : Nat) :
    ∀ (t u : JsonTree) (i : Nat) (m : Bool), same_except_expanded t u →
      node_to_json_string_internal fuel t i m =
        node_to_json_string_internal fuel u i m := by
  induction fuel with
  | zero => intro t u i m _; rfl
  | succ fuel ih =>
    intro t u i m h
    have hg := same_except_expanded_get t u h i
    unfold node_to_json_string_internal
    cases ht : t.get_node i with
    | none =>
        cases hu : u.get_node i with
        | none => rfl
        | some n2 => rw [ht, hu] at hg; exact Option.noConfusion hg
    | some n1 =>
        cases hu : u.get_node i with
        | none => rw [ht, hu] at hg; exact Option.noConfusion hg
        | some n2 =>
            rw [ht, hu] at hg
            obtain ⟨k1, v1, d1, c1, e1⟩ := n1
            obtain ⟨k2, v2, d2, c2, e2⟩ := n2
            have hd : (k1, v1, d1, c1) = (k2, v2, d2, c2) := Option.some.inj hg
            simp only [Prod.mk.injEq] at hd
            obtain ⟨hkey, hval, hdep, hch⟩ := hd
            subst hkey hval hdep hch
            cases v1 with
            | null => rfl
            | bool b => rfl
            | number s => rfl
            | string s => rfl
            | array =>
                have hmap : c1.map (fun child_idx =>
                    node_to_json_string_internal fuel t child_idx m) =
                  c1.map (fun child_idx =>
                    node_to_json_string_internal fuel u child_idx m) :=
                  List.map_congr_left (fun c _ => ih t u c m h)
                simp only [hmap]
            | object =>
                have hfm : c1.filterMap (fun child_idx =>
                    (t.get_node child_idx).map (fun child =>
                      "\"" ++ child.key.getD "" ++ "\"" ++
                        (if m then ":" else ": ") ++
                        node_to_json_string_internal fuel t child_idx m)) =
                  c1.filterMap (fun child_idx =>
                    (u.get_node child_idx).map (fun child =>
                      "\"" ++ child.key.getD "" ++ "\"" ++
                        (if m then ":" else ": ") ++
                        node_to_json_string_internal fuel u child_idx m)) := by
                  apply List.filterMap_congr
                  intro c _
                  have hgc := same_except_expanded_get t u h c
                  cases htc : t.get_node c with
                  | none =>
                      cases huc : u.get_node c with
                      | none => rfl
                      | some w => rw [htc, huc] at hgc; exact Option.noConfusion hgc
                  | some w1 =>
                      cases huc : u.get_node c with
                      | none => rw [htc, huc] at hgc; exact Option.noConfusion hgc
                      | some w2 =>
                          rw [htc, huc] at hgc
                          have hk : w1.key = w2.key := by
                            have hq2 := Option.some.inj hgc
                            exact congrArg (fun q => q.1) hq2
                          dsimp only [Option.map]
                          rw [hk, ih t u c m h]
                simp only [hfm]

/-- C10: the exported JSON strings, spaced and minified, are independent of
the `expanded` flags: trees identical except in expansion state serialize
identically, and in particular `toggle_expanded` never changes the export. -/
theorem export_independent_of_expansion (t u : JsonTree)
    (h : same_except_expanded t u) (node_index : Nat) :
    node_to_json_string t node_index = node_to_json_string u node_index ∧
    node_to_json_string_minified t node_index =
      node_to_json_string_minified u node_index ∧
    ∀ j, node_to_json_string (t.toggle_expanded j) node_index =
        node_to_json_string t node_index ∧
      node_to_json_string_minified (t.toggle_expanded j) node_index =
        node_to_json_string_minified t node_index := by
  have hlen := h.2.1
  have htoggle : ∀ j, same_except_expanded (t.toggle_expanded j) t := by
    intro j
    obtain ⟨hcount, hroot, hget, _⟩ := toggle_expanded_shape t j
    refine ⟨hroot, hcount, fun i _ => hget i⟩
  refine ⟨?_, ?_, ?_⟩
  · unfold node_to_json_string
    rw [show t.node_count = u.node_count from hlen]
    exact export_internal_congr _ t u node_index false h
  · unfold node_to_json_string_minified
    rw [show t.node_count = u.node_count from hlen]
    exact export_internal_congr _ t u node_index true h
  · intro j
    constructor
    · unfold node_to_json_string
      rw [show (t.toggle_expanded j).node_count = t.node_count from (htoggle j).2.1]
      exact export_internal_congr _ _ t node_index false (htoggle j)
    · unfold node_to_json_string_minified
      rw [show (t.toggle_expanded j).node_count = t.node_count from (htoggle j).2.1]
      exact export_internal_congr _ _ t node_index true (htoggle j)

/-- Witness for C10: toggling the root of a concrete tree changes no export. -/
theorem export_independent_of_expansion_witness :
    node_to_json_string (build_tree (.jobj [("a", .jnum "1")]))
        ((build_tree (.jobj [("a", .jnum "1")])).toggle_expanded 1).root_index =
      node_to_json_string
        ((build_tree (.jobj [("a", .jnum "1")])).toggle_expanded 1)
        ((build_tree (.jobj [("a", .jnum "1")])).toggle_expanded 1).root_index :=
  (export_independent_of_expansion (build_tree (.jobj [("a", .jnum "1")]))
    ((build_tree (.jobj [("a", .jnum "1")])).toggle_expanded 1)
    (by decide) _).1

/-! ### Structural theory of built trees (used by C1 and C2) -/

mutual

/-- Number of nodes the builder creates for a value. -/
def jsize : JVal → Nat
  | .jnull => 1
  | .jbool _ => 1
  | .jnum _ => 1
  | .jstr _ => 1
  | .jarr items => jsize_items items + 1
  | .jobj fields => jsize_fields fields + 1

/-- Total node count of a list of array items. -/
def jsize_items : List JVal → Nat
  | [] => 0
  | v :: rest => jsize v + jsize_items rest

/-- Total node count of a list of object members. -/
def jsize_fields : List (String × JVal) → Nat
  | [] => 0
  | (_, v) :: rest => jsize v + jsize_fields rest

end

/-- The `JsonValue` marker the builder stores for a value. -/
def kind_of : JVal → JsonValue
  | .jnull => .null
  | .jbool b => .bool b
  | .jnum s => .number s
  | .jstr s => .string s
  | .jarr _ => .array
  | .jobj _ => .object

/-- Parent-child edge of the arena: `c` is listed among `p`'s children. -/
def child_rel (t : JsonTree) (p c : Nat) : Prop :=
  ∃ node, t.get_node p = some node ∧ c ∈ node.children

/-- Node `a` exists and is expanded. -/
def expanded_at (t : JsonTree) (a : Nat) : Prop :=
  ∃ node, t.get_node a = some node ∧ node.expanded = true

/-- Arena sanity: children have smaller indices than their parent and every
node has at most one parent. -/
def good_tree (t : JsonTree) : Prop :=
  (∀ p n, child_rel t p n → n < p) ∧
  (∀ p1 p2 n, child_rel t p1 n → child_rel t p2 n → p1 = p2)

/-- Post-order traversal (children before the node), fuel per tree level. -/
def postorder_aux (fuel : Nat) (t : JsonTree) (idx : Nat) : List Nat :=
  match fuel with
  | 0 => []
  | fuel + 1 =>
    match t.get_node idx with
    | none => []
    | some node => (node.children.map (postorder_aux fuel t)).flatten ++ [idx]

/-- Post-order traversal of the whole tree from the root. -/
def postorder_indices (t : JsonTree) : List Nat :=
  postorder_aux t.node_count t t.root_index

/-- Pre-order traversal (node before its children), fuel per tree level. -/
def preorder_aux (fuel : Nat) (t : JsonTree) (idx : Nat) : List Nat :=
  match fuel with
  | 0 => []
  | fuel + 1 =>
    match t.get_node idx with
    | none => []
    | some node => idx :: (node.children.map (preorder_aux fuel t)).flatten

/-- Pre-order traversal of the whole tree from the root. -/
def preorder_indices (t : JsonTree) : List Nat :=
  preorder_aux t.node_count t t.root_index

/-- An edge only constrains indices below the node count. -/
theorem child_rel_parent_lt (t : JsonTree) (p n : Nat) (h : child_rel t p n) :
    p < t.nodes.length := by
  obtain ⟨node, hg, _⟩ := h
  exact (List.getElem?_eq_some_iff.mp hg).1

/-- Edges are stable under changes that preserve the parent's entry. -/
theorem child_rel_congr (t t' : JsonTree) (p : Nat)
    (h : t'.nodes[p]? = t.nodes[p]?) (n : Nat) :
    child_rel t' p n ↔ child_rel t p n := by
  unfold child_rel JsonTree.get_node
  rw [h]

/-- Every value builds at least one node. -/
theorem jsize_pos (v : JVal) : 1 ≤ jsize v := by
  cases v <;> simp [jsize]

/-- Complete description of `add_node`: lengths, preserved prefix, the new
entry, and the edge relation of the extended arena. -/
theorem add_node_struct (t0 : JsonTree) (nd : JsonNode) :
    (t0.add_node nd).2 = t0.nodes.length ∧
    (t0.add_node nd).1.nodes.length = t0.nodes.length + 1 ∧
    (∀ j, j < t0.nodes.length → (t0.add_node nd).1.nodes[j]? = t0.nodes[j]?) ∧
    (t0.add_node nd).1.nodes[t0.nodes.length]? = some nd ∧
    (∀ p n, child_rel (t0.add_node nd).1 p n ↔
      (child_rel t0 p n ∨ (p = t0.nodes.length ∧ n ∈ nd.children))) := by
  refine ⟨rfl, by simp [JsonTree.add_node], ?_, ?_, ?_⟩
  · intro j hj
    exact List.getElem?_append_left hj
  · exact List.getElem?_concat_length _ _
  · intro p n
    unfold child_rel JsonTree.get_node JsonTree.add_node
    simp only
    constructor
    · rintro ⟨node, hg, hn⟩
      rcases Nat.lt_trichotomy p t0.nodes.length with hp | hp | hp
      · exact Or.inl ⟨node, by rwa [List.getElem?_append_left hp] at hg, hn⟩
      · subst hp
        rw [List.getElem?_concat_length] at hg
        exact Or.inr ⟨rfl, by rw [Option.some.inj hg]; exact hn⟩
      · exfalso
        rw [List.getElem?_eq_none (by simp; omega)] at hg
        exact Option.noConfusion hg
    · rintro (⟨node, hg, hn⟩ | ⟨hp, hn⟩)
      · have hp : p < t0.nodes.length := (List.getElem?_eq_some_iff.mp hg).1
        exact ⟨node, by rw [List.getElem?_append_left hp]; exact hg, hn⟩
      · subst hp
        exact ⟨nd, List.getElem?_concat_length _ _, hn⟩

/-- Structure lemma for the four scalar branches of `build_node`: the effect
of appending a childless node. -/
theorem build_leaf_struct (t0 : JsonTree) (nd : JsonNode)
    (hch : nd.children = []) (t' : JsonTree) (i : Nat)
    (h : t0.add_node nd = (t', i)) :
    t'.nodes.length = t0.nodes.length + 1 ∧
    i + 1 = t0.nodes.length + 1 ∧
    (∀ j, j < t0.nodes.length → t'.nodes[j]? = t0.nodes[j]?) ∧
    t'.get_node i = some nd ∧
    (∀ p n, child_rel t' p n →
      child_rel t0 p n ∨ (t0.nodes.length ≤ n ∧ n < p ∧ p < t'.nodes.length)) ∧
    (good_tree t0 → good_tree t') ∧
    (∀ n, t0.nodes.length ≤ n → n < i → ∃ p, child_rel t' p n) ∧
    (∀ u : JsonTree,
      (∀ j, t0.nodes.length ≤ j → j < t'.nodes.length →
        u.get_node j = t'.get_node j) →
      ∀ fuel, i < fuel →
        postorder_aux fuel u i = List.range' t0.nodes.length 1) := by
  obtain ⟨ha1, ha2, ha3, ha4, ha5⟩ := add_node_struct t0 nd
  have e1 : (t0.add_node nd).1 = t' := congrArg Prod.fst h
  have e2 : (t0.add_node nd).2 = i := congrArg Prod.snd h
  subst e1
  rw [ha1] at e2
  subst e2
  have hrel : ∀ p n, child_rel (t0.add_node nd).1 p n ↔ child_rel t0 p n := by
    intro p n
    rw [ha5 p n, hch]
    simp
  refine ⟨ha2, rfl, ha3, ha4, ?_, ?_, ?_, ?_⟩
  · intro p n hpn
    exact Or.inl ((hrel p n).mp hpn)
  · intro hg
    exact ⟨fun p n hpn => hg.1 p n ((hrel p n).mp hpn),
      fun p1 p2 n h1 h2 => hg.2 p1 p2 n ((hrel p1 n).mp h1) ((hrel p2 n).mp h2)⟩
  · intro n hn1 hn2
    omega
  · intro u hagree fuel hfuel
    cases fuel with
    | zero => omega
    | succ f =>
        have hu : u.get_node t0.nodes.length = some nd := by
          rw [hagree t0.nodes.length (Nat.le_refl _) (by omega)]
          exact ha4
        unfold postorder_aux
        rw [hu]
        dsimp only
        rw [hch]
        simp [List.range'_one]

mutual

/-- Full structural description of `build_node`: sizes, index layout, prefix
preservation, the created node, edge classification, arena sanity
preservation, parent existence inside the region, and the post-order
traversal of the new subtree. -/
theorem build_node_struct (v : JVal) (t0 : JsonTree) (key : Option String)
    (depth : Nat) (t' : JsonTree) (i : Nat)
    (h : build_node t0 key v depth = (t', i)) :
    t'.nodes.length = t0.nodes.length + jsize v ∧
    i + 1 = t0.nodes.length + jsize v ∧
    (∀ j, j < t0.nodes.length → t'.nodes[j]? = t0.nodes[j]?) ∧
    (∃ cs, t'.get_node i = some ⟨key, kind_of v, depth, cs, false⟩ ∧
      ∀ c ∈ cs, t0.nodes.length ≤ c ∧ c < i) ∧
    (∀ p n, child_rel t' p n →
      child_rel t0 p n ∨ (t0.nodes.length ≤ n ∧ n < p ∧ p < t'.nodes.length)) ∧
    (good_tree t0 → good_tree t') ∧
    (∀ n, t0.nodes.length ≤ n → n < i → ∃ p, child_rel t' p n) ∧
    (∀ u : JsonTree,
      (∀ j, t0.nodes.length ≤ j → j < t'.nodes.length →
        u.get_node j = t'.get_node j) →
      ∀ fuel, i < fuel →
        postorder_aux fuel u i = List.range' t0.nodes.length (jsize v)) := by
  cases v with
  | jnull =>
      obtain ⟨c1, c2, c3, c4, c5, c6, c7, c8⟩ :=
        build_leaf_struct t0 ⟨key, .null, depth, [], false⟩ rfl t' i h
      exact ⟨c1, c2, c3, ⟨[], c4, by simp⟩, c5, c6, c7, c8⟩
  | jbool b =>
      obtain ⟨c1, c2, c3, c4, c5, c6, c7, c8⟩ :=
        build_leaf_struct t0 ⟨key, .bool b, depth, [], false⟩ rfl t' i h
      exact ⟨c1, c2, c3, ⟨[], c4, by simp⟩, c5, c6, c7, c8⟩
  | jnum s =>
      obtain ⟨c1, c2, c3, c4, c5, c6, c7, c8⟩ :=
        build_leaf_struct t0 ⟨key, .number s, depth, [], false⟩ rfl t' i h
      exact ⟨c1, c2, c3, ⟨[], c4, by simp⟩, c5, c6, c7, c8⟩
  | jstr s =>
      obtain ⟨c1, c2, c3, c4, c5, c6, c7, c8⟩ :=
        build_leaf_struct t0 ⟨key, .string s, depth, [], false⟩ rfl t' i h
      exact ⟨c1, c2, c3, ⟨[], c4, by simp⟩, c5, c6, c7, c8⟩
  | jarr items =>
      rcases hbl : build_arr_children t0 items depth 0 with ⟨t1, idxs⟩
      have h' : (build_arr_children t0 items depth 0).1.add_node
          ⟨key, .array, depth, (build_arr_children t0 items depth 0).2, false⟩ =
            (t', i) := h
      rw [hbl] at h'
      dsimp only at h'
      obtain ⟨l1, l2, l3, l4, l5, l6, l7, l8⟩ :=
        build_arr_children_struct items t0 depth 0 t1 idxs hbl
      obtain ⟨ha1, ha2, ha3, ha4, ha5⟩ :=
        add_node_struct t1 ⟨key, .array, depth, idxs, false⟩
      have e1 : (t1.add_node ⟨key, .array, depth, idxs, false⟩).1 = t' :=
        congrArg Prod.fst h'
      have e2 : (t1.add_node ⟨key, .array, depth, idxs, false⟩).2 = i :=
        congrArg Prod.snd h'
      subst e1
      rw [ha1] at e2
      subst e2
      have hjs : jsize (JVal.jarr items) = jsize_items items + 1 := by
        simp [jsize]
      refine ⟨by omega, by omega, ?_, ?_, ?_, ?_, ?_, ?_⟩
      · intro j hj
        rw [ha3 j (by omega), l2 j hj]
      · refine ⟨idxs, ?_, ?_⟩
        · exact ha4
        · intro c hc
          obtain ⟨hc1, hc2⟩ := l3 c hc
          exact ⟨hc1, hc2⟩
      · intro p n hpn
        rcases (ha5 p n).mp hpn with hold | ⟨hp, hn⟩
        · rcases l4 p n hold with hold2 | ⟨r1, r2, r3⟩
          · exact Or.inl hold2
          · exact Or.inr ⟨r1, r2, by omega⟩
        · obtain ⟨hn1, hn2⟩ := l3 n hn
          exact Or.inr ⟨hn1, by omega, by omega⟩
      · intro hg
        have hg1 := l5 hg
        constructor
        · intro p n hpn
          rcases (ha5 p n).mp hpn with hold | ⟨hp, hn⟩
          · exact hg1.1 p n hold
          · obtain ⟨_, hn2⟩ := l3 n hn
            omega
        · intro p1 p2 n hp1 hp2
          rcases (ha5 p1 n).mp hp1 with hold1 | ⟨hq1, hn1⟩ <;>
            rcases (ha5 p2 n).mp hp2 with hold2 | ⟨hq2, hn2⟩
          · exact hg1.2 p1 p2 n hold1 hold2
          · exact absurd ⟨p1, hold1⟩ (l7 hg n hn2)
          · exact absurd ⟨p2, hold2⟩ (l7 hg n hn1)
          · omega
      · intro n hn1 hn2
        by_cases hin : n ∈ idxs
        · exact ⟨t1.nodes.length, (ha5 _ n).mpr (Or.inr ⟨rfl, hin⟩)⟩
        · obtain ⟨p, hp⟩ := l6 n hn1 (by omega) hin
          exact ⟨p, (ha5 p n).mpr (Or.inl hp)⟩
      · intro u hagree fuel hfuel
        cases fuel with
        | zero => omega
        | succ f =>
            have hu : u.get_node t1.nodes.length =
                some ⟨key, .array, depth, idxs, false⟩ := by
              rw [hagree t1.nodes.length (by omega) (by omega)]
              exact ha4
            unfold postorder_aux
            rw [hu]
            dsimp only
            have hflat : (idxs.map (postorder_aux f u)).flatten =
                List.range' t0.nodes.length (jsize_items items) := by
              apply l8 u
              · intro j hj1 hj2
                rw [hagree j hj1 (by omega)]
                unfold JsonTree.get_node
                rw [ha3 j hj2]
              · intro c hc
                obtain ⟨_, hc2⟩ := l3 c hc
                omega
            rw [hflat, hjs]
            rw [List.range'_1_concat]
            have : t0.nodes.length + jsize_items items = t1.nodes.length := by
              omega
            rw [this]
  | jobj fields =>
      rcases hbl : build_obj_children t0 fields depth with ⟨t1, idxs⟩
      have h' : (build_obj_children t0 fields depth).1.add_node
          ⟨key, .object, depth, (build_obj_children t0 fields depth).2, false⟩ =
            (t', i) := h
      rw [hbl] at h'
      dsimp only at h'
      obtain ⟨l1, l2, l3, l4, l5, l6, l7, l8⟩ :=
        build_obj_children_struct fields t0 depth t1 idxs hbl
      obtain ⟨ha1, ha2, ha3, ha4, ha5⟩ :=
        add_node_struct t1 ⟨key, .object, depth, idxs, false⟩
      have e1 : (t1.add_node ⟨key, .object, depth, idxs, false⟩).1 = t' :=
        congrArg Prod.fst h'
      have e2 : (t1.add_node ⟨key, .object, depth, idxs, false⟩).2 = i :=
        congrArg Prod.snd h'
      subst e1
      rw [ha1] at e2
      subst e2
      have hjs : jsize (JVal.jobj fields) = jsize_fields fields + 1 := by
        simp [jsize]
      refine ⟨by omega, by omega, ?_, ?_, ?_, ?_, ?_, ?_⟩
      · intro j hj
        rw [ha3 j (by omega), l2 j hj]
      · exact ⟨idxs, ha4, fun c hc => l3 c hc⟩
      · intro p n hpn
        rcases (ha5 p n).mp hpn with hold | ⟨hp, hn⟩
        · rcases l4 p n hold with hold2 | ⟨r1, r2, r3⟩
          · exact Or.inl hold2
          · exact Or.inr ⟨r1, r2, by omega⟩
        · obtain ⟨hn1, hn2⟩ := l3 n hn
          exact Or.inr ⟨hn1, by omega, by omega⟩
      · intro hg
        have hg1 := l5 hg
        constructor
        · intro p n hpn
          rcases (ha5 p n).mp hpn with hold | ⟨hp, hn⟩
          · exact hg1.1 p n hold
          · obtain ⟨_, hn2⟩ := l3 n hn
            omega
        · intro p1 p2 n hp1 hp2
          rcases (ha5 p1 n).mp hp1 with hold1 | ⟨hq1, hn1⟩ <;>
            rcases (ha5 p2 n).mp hp2 with hold2 | ⟨hq2, hn2⟩
          · exact hg1.2 p1 p2 n hold1 hold2
          · exact absurd ⟨p1, hold1⟩ (l7 hg n hn2)
          · exact absurd ⟨p2, hold2⟩ (l7 hg n hn1)
          · omega
      · intro n hn1 hn2
        by_cases hin : n ∈ idxs
        · exact ⟨t1.nodes.length, (ha5 _ n).mpr (Or.inr ⟨rfl, hin⟩)⟩
        · obtain ⟨p, hp⟩ := l6 n hn1 (by omega) hin
          exact ⟨p, (ha5 p n).mpr (Or.inl hp)⟩
      · intro u hagree fuel hfuel
        cases fuel with
        | zero => omega
        | succ f =>
            have hu : u.get_node t1.nodes.length =
                some ⟨key, .object, depth, idxs, false⟩ := by
              rw [hagree t1.nodes.length (by omega) (by omega)]
              exact ha4
            unfold postorder_aux
            rw [hu]
            dsimp only
            have hflat : (idxs.map (postorder_aux f u)).flatten =
                List.range' t0.nodes.length (jsize_fields fields) := by
              apply l8 u
              · intro j hj1 hj2
                rw [hagree j hj1 (by omega)]
                unfold JsonTree.get_node
                rw [ha3 j hj2]
              · intro c hc
                obtain ⟨_, hc2⟩ := l3 c hc
                omega
            rw [hflat, hjs]
            rw [List.range'_1_concat]
            have : t0.nodes.length + jsize_fields fields = t1.nodes.length := by
              omega
            rw [this]

/-- Structure lemma for `build_arr_children`: the array-item subtrees occupy
the region appended after `t0`, their roots are the returned indices, and
their concatenated post-orders enumerate the region in ascending order. -/
theorem build_arr_children_struct (items : List JVal) (t0 : JsonTree)
    (depth i0 : Nat) (t1 : JsonTree) (idxs : List Nat)
    (h : build_arr_children t0 items depth i0 = (t1, idxs)) :
    t1.nodes.length = t0.nodes.length + jsize_items items ∧
    (∀ j, j < t0.nodes.length → t1.nodes[j]? = t0.nodes[j]?) ∧
    (∀ c ∈ idxs, t0.nodes.length ≤ c ∧ c < t1.nodes.length) ∧
    (∀ p n, child_rel t1 p n →
      child_rel t0 p n ∨ (t0.nodes.length ≤ n ∧ n < p ∧ p < t1.nodes.length)) ∧
    (good_tree t0 → good_tree t1) ∧
    (∀ n, t0.nodes.length ≤ n → n < t1.nodes.length → n ∉ idxs →
      ∃ p, child_rel t1 p n) ∧
    (good_tree t0 → ∀ c ∈ idxs, ¬ ∃ p, child_rel t1 p c) ∧
    (∀ u : JsonTree,
      (∀ j, t0.nodes.length ≤ j → j < t1.nodes.length →
        u.get_node j = t1.get_node j) →
      ∀ fuel, (∀ c ∈ idxs, c < fuel) →
        (idxs.map (postorder_aux fuel u)).flatten =
          List.range' t0.nodes.length (jsize_items items)) := by
  cases items with
  | nil =>
      have e1 : t0 = t1 := congrArg Prod.fst h
      have e2 : ([] : List Nat) = idxs := congrArg Prod.snd h
      subst e1
      rw [← e2]
      refine ⟨by simp [jsize_items], fun j _ => rfl, by simp, ?_, id, ?_, ?_, ?_⟩
      · intro p n hpn
        exact Or.inl hpn
      · intro n hn1 hn2 _
        omega
      · intro _ c hc
        exact absurd hc (List.not_mem_nil c)
      · intro u _ fuel _
        simp [jsize_items]
  | cons v rest =>
      rcases hbn : build_node t0 (some ("[" ++ toString i0 ++ "]")) v (depth + 1)
        with ⟨pt, pi⟩
      rcases hbc : build_arr_children pt rest depth (i0 + 1) with ⟨qt, qidxs⟩
      have h' : ((build_arr_children
          (build_node t0 (some ("[" ++ toString i0 ++ "]")) v (depth + 1)).1
          rest depth (i0 + 1)).1,
        (build_node t0 (some ("[" ++ toString i0 ++ "]")) v (depth + 1)).2 ::
          (build_arr_children
            (build_node t0 (some ("[" ++ toString i0 ++ "]")) v (depth + 1)).1
            rest depth (i0 + 1)).2) = (t1, idxs) := h
      rw [hbn] at h'
      dsimp only at h'
      rw [hbc] at h'
      dsimp only at h'
      have e1 : qt = t1 := congrArg Prod.fst h'
      have e2 : pi :: qidxs = idxs := congrArg Prod.snd h'
      subst e1
      rw [← e2]
      obtain ⟨n1, n2, n3, nex, n5, n6, n7, n8⟩ :=
        build_node_struct v t0 (some ("[" ++ toString i0 ++ "]")) (depth + 1)
          pt pi hbn
      obtain ⟨m1, m2, m3, m4, m5, m6, m7, m8⟩ :=
        build_arr_children_struct rest pt depth (i0 + 1) qt qidxs hbc
      have hjs : jsize_items (v :: rest) = jsize v + jsize_items rest := by
        simp [jsize_items]
      have hone := jsize_pos v
      refine ⟨by omega, ?_, ?_, ?_, ?_, ?_, ?_, ?_⟩
      · intro j hj
        rw [m2 j (by omega), n3 j hj]
      · intro c hc
        rcases List.mem_cons.mp hc with rfl | hc2
        · exact ⟨by omega, by omega⟩
        · obtain ⟨hc3, hc4⟩ := m3 c hc2
          exact ⟨by omega, hc4⟩
      · intro p n hpn
        rcases m4 p n hpn with hmid | ⟨r1, r2, r3⟩
        · rcases n5 p n hmid with hold | ⟨s1, s2, s3⟩
          · exact Or.inl hold
          · exact Or.inr ⟨s1, s2, by omega⟩
        · exact Or.inr ⟨by omega, r2, r3⟩
      · intro hg
        exact m5 (n6 hg)
      · intro n hn1 hn2 hnotin
        have hne : n ≠ pi := fun e => hnotin (e ▸ List.mem_cons_self pi qidxs)
        have hnq : n ∉ qidxs := fun e => hnotin (List.mem_cons_of_mem pi e)
        by_cases hlow : n < pt.nodes.length
        · obtain ⟨p, hp⟩ := n7 n hn1 (by omega)
          refine ⟨p, ?_⟩
          have hplen : p < pt.nodes.length := child_rel_parent_lt pt p n hp
          exact (child_rel_congr pt qt p (m2 p hplen) n).mpr hp
        · exact m6 n (by omega) hn2 hnq
      · intro hg c hc
        rcases List.mem_cons.mp hc with rfl | hc2
        · rintro ⟨p, hp⟩
          rcases m4 p c hp with hmid | ⟨r1, r2, r3⟩
          · rcases n5 p c hmid with hold | ⟨s1, s2, s3⟩
            · have hcl : c < p := hg.1 p c hold
              have hpl : p < t0.nodes.length := child_rel_parent_lt t0 p c hold
              omega
            · omega
          · omega
        · exact m7 (n6 hg) c hc2
      · intro u hagree fuel hfuel
        dsimp only [List.map_cons, List.flatten_cons]
        have h1 : postorder_aux fuel u pi = List.range' t0.nodes.length (jsize v) := by
          apply n8 u
          · intro j hj1 hj2
            rw [hagree j hj1 (by omega)]
            unfold JsonTree.get_node
            rw [m2 j hj2]
          · exact hfuel pi (List.mem_cons_self pi qidxs)
        have h2 : (qidxs.map (postorder_aux fuel u)).flatten =
            List.range' pt.nodes.length (jsize_items rest) := by
          apply m8 u
          · intro j hj1 hj2
            exact hagree j (by omega) hj2
          · intro c hc
            exact hfuel c (List.mem_cons_of_mem pi hc)
        rw [h1, h2, hjs]
        have : pt.nodes.length = t0.nodes.length + jsize v := n1
        rw [this, List.range'_append_1, Nat.add_comm (jsize_items rest) (jsize v)]

/-- Structure lemma for `build_obj_children`; identical in structure to the
array version, with member keys instead of positional keys. -/
theorem build_obj_children_struct (fields : List (String × JVal)) (t0 : JsonTree)
    (depth : Nat) (t1 : JsonTree) (idxs : List Nat)
    (h : build_obj_children t0 fields depth = (t1, idxs)) :
    t1.nodes.length = t0.nodes.length + jsize_fields fields ∧
    (∀ j, j < t0.nodes.length → t1.nodes[j]? = t0.nodes[j]?) ∧
    (∀ c ∈ idxs, t0.nodes.length ≤ c ∧ c < t1.nodes.length) ∧
    (∀ p n, child_rel t1 p n →
      child_rel t0 p n ∨ (t0.nodes.length ≤ n ∧ n < p ∧ p < t1.nodes.length)) ∧
    (good_tree t0 → good_tree t1) ∧
    (∀ n, t0.nodes.length ≤ n → n < t1.nodes.length → n ∉ idxs →
      ∃ p, child_rel t1 p n) ∧
    (good_tree t0 → ∀ c ∈ idxs, ¬ ∃ p, child_rel t1 p c) ∧
    (∀ u : JsonTree,
      (∀ j, t0.nodes.length ≤ j → j < t1.nodes.length →
        u.get_node j = t1.get_node j) →
      ∀ fuel, (∀ c ∈ idxs, c < fuel) →
        (idxs.map (postorder_aux fuel u)).flatten =
          List.range' t0.nodes.length (jsize_fields fields)) := by
  cases fields with
  | nil =>
      have e1 : t0 = t1 := congrArg Prod.fst h
      have e2 : ([] : List Nat) = idxs := congrArg Prod.snd h
      subst e1
      rw [← e2]
      refine ⟨by simp [jsize_fields], fun j _ => rfl, by simp, ?_, id, ?_, ?_, ?_⟩
      · intro p n hpn
        exact Or.inl hpn
      · intro n hn1 hn2 _
        omega
      · intro _ c hc
        exact absurd hc (List.not_mem_nil c)
      · intro u _ fuel _
        simp [jsize_fields]
  | cons kv rest =>
      rcases kv with ⟨k, v⟩
      rcases hbn : build_node t0 (some k) v (depth + 1) with ⟨pt, pi⟩
      rcases hbc : build_obj_children pt rest depth with ⟨qt, qidxs⟩
      have h' : ((build_obj_children (build_node t0 (some k) v (depth + 1)).1
          rest depth).1,
        (build_node t0 (some k) v (depth + 1)).2 ::
          (build_obj_children (build_node t0 (some k) v (depth + 1)).1
            rest depth).2) = (t1, idxs) := h
      rw [hbn] at h'
      dsimp only at h'
      rw [hbc] at h'
      dsimp only at h'
      have e1 : qt = t1 := congrArg Prod.fst h'
      have e2 : pi :: qidxs = idxs := congrArg Prod.snd h'
      subst e1
      rw [← e2]
      obtain ⟨n1, n2, n3, nex, n5, n6, n7, n8⟩ :=
        build_node_struct v t0 (some k) (depth + 1) pt pi hbn
      obtain ⟨m1, m2, m3, m4, m5, m6, m7, m8⟩ :=
        build_obj_children_struct rest pt depth qt qidxs hbc
      have hjs : jsize_fields ((k, v) :: rest) = jsize v + jsize_fields rest := by
        simp [jsize_fields]
      have hone := jsize_pos v
      refine ⟨by omega, ?_, ?_, ?_, ?_, ?_, ?_, ?_⟩
      · intro j hj
        rw [m2 j (by omega), n3 j hj]
      · intro c hc
        rcases List.mem_cons.mp hc with rfl | hc2
        · exact ⟨by omega, by omega⟩
        · obtain ⟨hc3, hc4⟩ := m3 c hc2
          exact ⟨by omega, hc4⟩
      · intro p n hpn
        rcases m4 p n hpn with hmid | ⟨r1, r2, r3⟩
        · rcases n5 p n hmid with hold | ⟨s1, s2, s3⟩
          · exact Or.inl hold
          · exact Or.inr ⟨s1, s2, by omega⟩
        · exact Or.inr ⟨by omega, r2, r3⟩
      · intro hg
        exact m5 (n6 hg)
      · intro n hn1 hn2 hnotin
        have hne : n ≠ pi := fun e => hnotin (e ▸ List.mem_cons_self pi qidxs)
        have hnq : n ∉ qidxs := fun e => hnotin (List.mem_cons_of_mem pi e)
        by_cases hlow : n < pt.nodes.length
        · obtain ⟨p, hp⟩ := n7 n hn1 (by omega)
          refine ⟨p, ?_⟩
          have hplen : p < pt.nodes.length := child_rel_parent_lt pt p n hp
          exact (child_rel_congr pt qt p (m2 p hplen) n).mpr hp
        · exact m6 n (by omega) hn2 hnq
      · intro hg c hc
        rcases List.mem_cons.mp hc with rfl | hc2
        · rintro ⟨p, hp⟩
          rcases m4 p c hp with hmid | ⟨r1, r2, r3⟩
          · rcases n5 p c hmid with hold | ⟨s1, s2, s3⟩
            · have hcl : c < p := hg.1 p c hold
              have hpl : p < t0.nodes.length := child_rel_parent_lt t0 p c hold
              omega
            · omega
          · omega
        · exact m7 (n6 hg) c hc2
      · intro u hagree fuel hfuel
        dsimp only [List.map_cons, List.flatten_cons]
        have h1 : postorder_aux fuel u pi = List.range' t0.nodes.length (jsize v) := by
          apply n8 u
          · intro j hj1 hj2
            rw [hagree j hj1 (by omega)]
            unfold JsonTree.get_node
            rw [m2 j hj2]
          · exact hfuel pi (List.mem_cons_self pi qidxs)
        have h2 : (qidxs.map (postorder_aux fuel u)).flatten =
            List.range' pt.nodes.length (jsize_fields rest) := by
          apply m8 u
          · intro j hj1 hj2
            exact hagree j (by omega) hj2
          · intro c hc
            exact hfuel c (List.mem_cons_of_mem pi hc)
        rw [h1, h2, hjs]
        have : pt.nodes.length = t0.nodes.length + jsize v := n1
        rw [this, List.range'_append_1, Nat.add_comm (jsize_fields rest) (jsize v)]

end

/-- Shared helper: built trees number their nodes in post-order — the
post-order traversal from the root is exactly `0, 1, ..., count-1`. -/
theorem build_tree_postorder (v : JVal) :
    postorder_indices (build_tree v) = List.range ((build_tree v).node_count) := by
  rcases hbn : build_node JsonTree.new none v 0 with ⟨bt, bi⟩
  have hbt : build_tree v = bt.set_root bi := by
    unfold build_tree
    rw [hbn]
  obtain ⟨n1, n2, n3, nex, n5, n6, n7, n8⟩ :=
    build_node_struct v JsonTree.new none 0 bt bi hbn
  have hzero : JsonTree.new.nodes.length = 0 := rfl
  rw [hzero] at n1 n2
  unfold postorder_indices
  rw [hbt]
  have hpost := n8 (bt.set_root bi) (fun j _ _ => rfl) bt.nodes.length (by omega)
  have hcount : (bt.set_root bi).node_count = bt.nodes.length := rfl
  have hroot : (bt.set_root bi).root_index = bi := rfl
  rw [hcount, hroot, hpost, hzero, ← List.range_eq_range']
  have : jsize v = bt.nodes.length := by omega
  rw [this]

/-- C1 counterexample: in the tree built from the document
`("ka": ("kb": "x"))` the case-sensitive substring search for `"k"` returns
`[0, 1]`, but the document pre-order of the built tree is `[2, 1, 0]` — the
ascending-index match list is not in document pre-order. -/
theorem search_preorder_counterexample :
    (search_nodes failingEngine
      (build_tree (.jobj [("ka", .jobj [("kb", .jstr "x")])])) "k" true false).1 =
      [0, 1] ∧
    preorder_indices (build_tree (.jobj [("ka", .jobj [("kb", .jstr "x")])])) =
      [2, 1, 0] ∧
    ¬ ((search_nodes failingEngine
      (build_tree (.jobj [("ka", .jobj [("kb", .jstr "x")])])) "k" true
        false).1.Sublist
      (preorder_indices (build_tree (.jobj [("ka", .jobj [("kb", .jstr "x")])])))) := by
  exact ⟨by decide, by decide, by decide⟩

/-- C1 amended: the search scans ascending node indices, and because the
builder creates children before their parent, ascending index order is the
document post-order (not pre-order): the post-order traversal of a built
tree is `0..count`, and every match list is a subsequence of it. -/
theorem search_order_matches_postorder (v : JVal) (eng : RegexEngine)
    (query : String) (cs ur : Bool) :
    postorder_indices (build_tree v) = List.range ((build_tree v).node_count) ∧
    (search_nodes eng (build_tree v) query cs ur).1.Sublist
      (postorder_indices (build_tree v)) := by
  have hpost := build_tree_postorder v
  refine ⟨hpost, ?_⟩
  rw [hpost]
  unfold search_nodes
  by_cases hq : query = ""
  · simp [hq]
  · simp only [hq, if_false]
    cases hcomp : (if ur then
        match eng.compile (if cs then query else "(?i)" ++ query) with
        | .ok r => Except.ok (some r)
        | .error e => Except.error e
      else Except.ok (none : Option (String → Bool))) with
    | error e => simp
    | ok rx =>
        have hsub : ∀ f : Nat → Option Nat, (∀ i x, f i = some x → x = i) →
            ((List.range ((build_tree v).node_count)).filterMap f).Sublist
              (List.range ((build_tree v).node_count)) := by
          intro f hf
          exact filterMap_some_imp_sublist f hf _
        apply hsub
        intro i x h
        cases hg : (build_tree v).get_node i with
        | none =>
            rw [hg] at h
            exact Option.noConfusion h
        | some node =>
            rw [hg] at h
            dsimp only at h
            split_ifs at h with h1 h2
            · exact (Option.some.inj h).symm
            · exact (Option.some.inj h).symm

/-! ### C2: flatten-visibility invariant -/

/-- Re-flag helper for `apply_flags`. -/
def apply_flags_nodes (flags : Nat → Bool) : Nat → List JsonNode → List JsonNode
  | _, [] => []
  | j0, n :: rest =>
      { n with expanded := flags j0 } :: apply_flags_nodes flags (j0 + 1) rest

/-- Overwrite every node's `expanded` flag by an arbitrary assignment.  The
program states reachable from a load are exactly built trees with re-chosen
flags, since toggling and reveal change only `expanded` (see C8). -/
def apply_flags (t : JsonTree) (flags : Nat → Bool) : JsonTree :=
  { t with nodes := apply_flags_nodes flags 0 t.nodes }

/-- Spec §4.3's row order: the pre-order traversal restricted to expanded
subtrees, starting at the root's children; written from the spec to compare
with the flattener. -/
def visible_preorder_aux (fuel : Nat) (t : JsonTree) (idx : Nat) : List Nat :=
  match fuel with
  | 0 => []
  | fuel + 1 =>
    match t.get_node idx with
    | none => []
    | some node =>
        idx :: (if node.expanded then
          (node.children.map (visible_preorder_aux fuel t)).flatten else [])

/-- Spec §4.3's visible rows of the whole tree (root is never a row). -/
def visible_preorder (t : JsonTree) : List Nat :=
  match t.get_node t.root_index with
  | none => []
  | some root => (root.children.map (visible_preorder_aux t.node_count t)).flatten

/-- Visibility chains: `n` is reachable from `i` through links that descend
only into expanded nodes (the target itself need not be expanded). -/
inductive VisFrom (t : JsonTree) : Nat → Nat → Prop where
  | refl (i : Nat) : VisFrom t i i
  | step (i c n : Nat) (node : JsonNode) (hg : t.get_node i = some node)
      (hexp : node.expanded = true) (hc : c ∈ node.children)
      (h : VisFrom t c n) : VisFrom t i n

theorem apply_flags_nodes_get (flags : Nat → Bool) :
    ∀ (l : List JsonNode) (j0 j : Nat),
      (apply_flags_nodes flags j0 l)[j]? =
        (l[j]?).map (fun n => { n with expanded := flags (j0 + j) }) := by
  intro l
  induction l with
  | nil => intro j0 j; simp [apply_flags_nodes]
  | cons n rest ih =>
      intro j0 j
      cases j with
      | zero => simp [apply_flags_nodes]
      | succ j =>
          simp only [apply_flags_nodes, List.getElem?_cons_succ]
          have he : j0 + 1 + j = j0 + (j + 1) := by omega
          rw [ih (j0 + 1) j, he]

/-- Reading a node of the re-flagged tree. -/
theorem apply_flags_get (t : JsonTree) (flags : Nat → Bool) (j : Nat) :
    (apply_flags t flags).get_node j =
      (t.get_node j).map (fun n => { n with expanded := flags j }) := by
  unfold apply_flags JsonTree.get_node
  simpa using apply_flags_nodes_get flags t.nodes 0 j

theorem apply_flags_length (t : JsonTree) (flags : Nat → Bool) :
    (apply_flags t flags).nodes.length = t.nodes.length := by
  unfold apply_flags
  have : ∀ (l : List JsonNode) (j0 : Nat),
      (apply_flags_nodes flags j0 l).length = l.length := by
    intro l
    induction l with
    | nil => intro j0; rfl
    | cons n rest ih => intro j0; simp [apply_flags_nodes, ih]
  exact this t.nodes 0

theorem apply_flags_child_rel (t : JsonTree) (flags : Nat → Bool) (p n : Nat) :
    child_rel (apply_flags t flags) p n ↔ child_rel t p n := by
  unfold child_rel
  rw [apply_flags_get]
  cases t.get_node p with
  | none => simp
  | some node => simp

/-- Projection of the flattener onto node indices: it emits exactly the
spec's restricted pre-order, appended to the accumulator. -/
theorem flatten_node_indices (fuel : Nat) (t : JsonTree) :
    ∀ (idx : Nat) (rows : List FlatRow) (pfx : String) (il ir : Bool)
      (path : String),
      (flatten_node fuel t idx rows pfx il ir path).map FlatRow.node_index =
        rows.map FlatRow.node_index ++ visible_preorder_aux fuel t idx := by
  induction fuel with
  | zero =>
      intro idx rows pfx il ir path
      simp [flatten_node, visible_preorder_aux]
  | succ f ih =>
      intro idx rows pfx il ir path
      have hfold : ∀ (F : List FlatRow → Nat × Nat → List FlatRow),
          (∀ acc p, (F acc p).map FlatRow.node_index =
            acc.map FlatRow.node_index ++ visible_preorder_aux f t p.2) →
          ∀ (l : List (Nat × Nat)) (rows' : List FlatRow),
            ((l.foldl F rows').map FlatRow.node_index) =
              rows'.map FlatRow.node_index ++
                (l.map (fun p => visible_preorder_aux f t p.2)).flatten := by
        intro F hF l
        induction l with
        | nil => intro rows'; simp
        | cons p rest ih2 =>
            intro rows'
            simp only [List.foldl_cons, List.map_cons, List.flatten_cons]
            rw [ih2, hF, List.append_assoc]
      unfold flatten_node visible_preorder_aux
      cases hg : t.get_node idx with
      | none => simp
      | some node =>
          dsimp only
          cases hexp : node.expanded with
          | false => simp [hexp]
          | true =>
              simp only [hexp, if_true]
              rw [hfold _ (fun acc p => ih p.2 acc _ _ false _) _ _]
              rw [show (fun (p : Nat × Nat) => visible_preorder_aux f t p.2) =
                    (visible_preorder_aux f t) ∘ Prod.snd from rfl,
                ← List.map_map, List.enum_map_snd]
              simp

/-- Length of the flattener's output. -/
theorem flatten_node_length (fuel : Nat) (t : JsonTree) (idx : Nat)
    (rows : List FlatRow) (pfx : String) (il ir : Bool) (path : String) :
    (flatten_node fuel t idx rows pfx il ir path).length =
      rows.length + (visible_preorder_aux fuel t idx).length := by
  have h := congrArg List.length (flatten_node_indices fuel t idx rows pfx il ir path)
  simpa using h

/-- Projection of the flattener onto row indices: row positions are assigned
sequentially from the accumulator's length. -/
theorem flatten_node_row_indices (fuel : Nat) (t : JsonTree) :
    ∀ (idx : Nat) (rows : List FlatRow) (pfx : String) (il ir : Bool)
      (path : String),
      (flatten_node fuel t idx rows pfx il ir path).map FlatRow.row_index =
        rows.map FlatRow.row_index ++
          List.range' rows.length (visible_preorder_aux fuel t idx).length := by
  induction fuel with
  | zero =>
      intro idx rows pfx il ir path
      simp [flatten_node, visible_preorder_aux]
  | succ f ih =>
      intro idx rows pfx il ir path
      have hfold : ∀ (F : List FlatRow → Nat × Nat → List FlatRow),
          (∀ acc p, (F acc p).map FlatRow.row_index =
            acc.map FlatRow.row_index ++
              List.range' acc.length (visible_preorder_aux f t p.2).length) →
          (∀ acc p, (F acc p).length =
            acc.length + (visible_preorder_aux f t p.2).length) →
          ∀ (l : List (Nat × Nat)) (rows' : List FlatRow),
            ((l.foldl F rows').map FlatRow.row_index) =
              rows'.map FlatRow.row_index ++
                List.range' rows'.length
                  ((l.map (fun p => (visible_preorder_aux f t p.2).length)).sum) := by
        intro F hF hFlen l
        induction l with
        | nil => intro rows'; simp
        | cons p rest ih2 =>
            intro rows'
            simp only [List.foldl_cons, List.map_cons, List.sum_cons]
            rw [ih2, hF, hFlen, List.append_assoc, List.range'_append_1,
              Nat.add_comm ((rest.map
                (fun p => (visible_preorder_aux f t p.2).length)).sum)]
      unfold flatten_node visible_preorder_aux
      cases hg : t.get_node idx with
      | none => simp
      | some node =>
          dsimp only
          cases hexp : node.expanded with
          | false => simp [hexp]
          | true =>
              simp only [hexp, if_true]
              rw [hfold _ (fun acc p => ih p.2 acc _ _ false _)
                (fun acc p => flatten_node_length f t p.2 acc _ _ false _) _ _]
              rw [show (fun (p : Nat × Nat) =>
                    (visible_preorder_aux f t p.2).length) =
                    (fun c => (visible_preorder_aux f t c).length) ∘ Prod.snd from
                    rfl,
                ← List.map_map, List.enum_map_snd]
              simp only [hexp, List.range'_succ _ _ 1, List.length_flatten,
                List.map_map, List.length_cons, List.length_append,
                List.length_map, List.map_append, List.map_cons, List.map_nil,
                List.append_assoc, List.singleton_append, if_true]
              rfl

/-- Membership in the restricted pre-order of a subtree is exactly a
visibility chain ending at an existing node (for arenas whose children have
smaller indices, with at least `idx + 1` fuel). -/
theorem visible_preorder_aux_mem (t : JsonTree)
    (hlt : ∀ p n, child_rel t p n → n < p) :
    ∀ (fuel i n : Nat), i < fuel →
      (n ∈ visible_preorder_aux fuel t i ↔
        (VisFrom t i n ∧ ∃ node, t.get_node n = some node)) := by
  intro fuel
  induction fuel with
  | zero => intro i n h; omega
  | succ f ih =>
      intro i n hi
      unfold visible_preorder_aux
      cases hg : t.get_node i with
      | none =>
          simp only [List.not_mem_nil, false_iff]
          rintro ⟨hv, node, hn⟩
          cases hv with
          | refl => rw [hg] at hn; exact Option.noConfusion hn
          | step _ c _ node2 hg2 hexp2 hc2 hv2 =>
              rw [hg] at hg2
              exact Option.noConfusion hg2
      | some node =>
          constructor
          · intro hmem
            rcases List.mem_cons.mp hmem with rfl | hrest
            · exact ⟨VisFrom.refl n, node, hg⟩
            · cases hexp : node.expanded with
              | false =>
                  rw [hexp] at hrest
                  simp at hrest
              | true =>
                  rw [hexp] at hrest
                  simp only [if_true] at hrest
                  obtain ⟨lst, hlst, hnl⟩ := List.mem_flatten.mp hrest
                  obtain ⟨c, hc, rfl⟩ := List.mem_map.mp hlst
                  have hclt : c < i := hlt i c ⟨node, hg, hc⟩
                  obtain ⟨hv2, hex⟩ := (ih c n (by omega)).mp hnl
                  exact ⟨VisFrom.step i c n node hg hexp hc hv2, hex⟩
          · rintro ⟨hv, node', hn⟩
            cases hv with
            | refl => exact List.mem_cons_self _ _
            | step _ c _ node2 hg2 hexp2 hc2 hv2 =>
                rw [hg] at hg2
                obtain rfl := Option.some.inj hg2
                have hclt : c < i := hlt i c ⟨node, hg, hc2⟩
                have hin : n ∈ visible_preorder_aux f t c :=
                  (ih c n (by omega)).mpr ⟨hv2, node', hn⟩
                apply List.mem_cons_of_mem
                rw [hexp2]
                simp only [if_true]
                exact List.mem_flatten.mpr
                  ⟨visible_preorder_aux f t c, List.mem_map_of_mem _ hc2, hin⟩

/-- Visibility chains only descend. -/
theorem visFrom_le (t : JsonTree) (hlt : ∀ p n, child_rel t p n → n < p) :
    ∀ i n, VisFrom t i n → n ≤ i := by
  intro i n hv
  induction hv with
  | refl => exact Nat.le_refl _
  | step i c n node hg hexp hc hv2 ih =>
      have := hlt i c ⟨node, hg, hc⟩
      omega

/-- Strict ancestors have strictly larger indices. -/
theorem transGen_child_lt (t : JsonTree)
    (hlt : ∀ p n, child_rel t p n → n < p) :
    ∀ a n, Relation.TransGen (child_rel t) a n → n < a := by
  intro a n h
  induction h with
  | single h1 => exact hlt _ _ h1
  | tail h1 h2 ih =>
      have := hlt _ _ h2
      omega

/-- With unique parents, an ancestor of a node either is its parent or is an
ancestor of that parent. -/
theorem transGen_peel (t : JsonTree)
    (huniq : ∀ p1 p2 n, child_rel t p1 n → child_rel t p2 n → p1 = p2)
    (a n p : Nat) (ha : Relation.TransGen (child_rel t) a n)
    (hp : child_rel t p n) : a = p ∨ Relation.TransGen (child_rel t) a p := by
  obtain ⟨b, hab, hbn⟩ := Relation.TransGen.tail'_iff.mp ha
  obtain rfl := huniq b p n hbn hp
  rcases Relation.reflTransGen_iff_eq_or_transGen.mp hab with rfl | h
  · exact Or.inl rfl
  · exact Or.inr h

/-- An ancestor of a node inside a visibility chain from `c` is either an
ancestor of `c` itself or lies properly on the chain. -/
theorem transGen_of_visFrom (t : JsonTree)
    (hlt : ∀ p n, child_rel t p n → n < p)
    (huniq : ∀ p1 p2 n, child_rel t p1 n → child_rel t p2 n → p1 = p2) :
    ∀ c n, VisFrom t c n → ∀ a, Relation.TransGen (child_rel t) a n →
      Relation.TransGen (child_rel t) a c ∨ (VisFrom t a n ∧ a ≠ n) := by
  intro c n hv
  induction hv with
  | refl => exact fun a ha => Or.inl ha
  | step i c1 n node hg hexp hc hv2 ih =>
      intro a ha
      rcases ih a ha with h1 | h2
      · rcases transGen_peel t huniq a c1 i h1 ⟨node, hg, hc⟩ with rfl | h3
        · refine Or.inr ⟨VisFrom.step a c1 n node hg hexp hc hv2, ?_⟩
          have := transGen_child_lt t hlt a n ha
          omega
        · exact Or.inl h3
      · exact Or.inr h2

/-- A chain node other than the target is expanded. -/
theorem visFrom_expanded (t : JsonTree) (a n : Nat) (hv : VisFrom t a n)
    (hne : a ≠ n) : expanded_at t a := by
  cases hv with
  | refl => exact absurd rfl hne
  | step _ c _ node hg hexp hc hv2 => exact ⟨node, hg, hexp⟩

/-- A visibility chain extends through an expanded endpoint to its child. -/
theorem visFrom_snoc (t : JsonTree) :
    ∀ c p n, VisFrom t c p → child_rel t p n → expanded_at t p →
      VisFrom t c n := by
  intro c p n hv
  induction hv with
  | refl =>
      rintro ⟨node, hg, hc⟩ ⟨node2, hg2, hexp⟩
      rw [hg] at hg2
      obtain rfl := Option.some.inj hg2
      exact VisFrom.step _ n n node hg hexp hc (VisFrom.refl n)
  | step i c1 p node hg hexp hc hv2 ih =>
      intro hp hexp2
      exact VisFrom.step i c1 n node hg hexp hc (ih hp hexp2)

/-- Generic block-append property of the flattener's child fold (node
indices). -/
theorem foldl_flatten_node_indices (f : Nat) (t : JsonTree)
    (F : List FlatRow → Nat × Nat → List FlatRow)
    (hF : ∀ acc p, (F acc p).map FlatRow.node_index =
      acc.map FlatRow.node_index ++ visible_preorder_aux f t p.2) :
    ∀ (l : List (Nat × Nat)) (rows' : List FlatRow),
      ((l.foldl F rows').map FlatRow.node_index) =
        rows'.map FlatRow.node_index ++
          (l.map (fun p => visible_preorder_aux f t p.2)).flatten := by
  intro l
  induction l with
  | nil => intro rows'; simp
  | cons p rest ih2 =>
      intro rows'
      simp only [List.foldl_cons, List.map_cons, List.flatten_cons]
      rw [ih2, hF, List.append_assoc]

/-- Generic block-append property of the flattener's child fold (row
indices). -/
theorem foldl_flatten_row_indices (f : Nat) (t : JsonTree)
    (F : List FlatRow → Nat × Nat → List FlatRow)
    (hF : ∀ acc p, (F acc p).map FlatRow.row_index =
      acc.map FlatRow.row_index ++
        List.range' acc.length (visible_preorder_aux f t p.2).length)
    (hFlen : ∀ acc p, (F acc p).length =
      acc.length + (visible_preorder_aux f t p.2).length) :
    ∀ (l : List (Nat × Nat)) (rows' : List FlatRow),
      ((l.foldl F rows').map FlatRow.row_index) =
        rows'.map FlatRow.row_index ++
          List.range' rows'.length
            ((l.map (fun p => (visible_preorder_aux f t p.2).length)).sum) := by
  intro l
  induction l with
  | nil => intro rows'; simp
  | cons p rest ih2 =>
      intro rows'
      simp only [List.foldl_cons, List.map_cons, List.sum_cons]
      rw [ih2, hF, hFlen, List.append_assoc, List.range'_append_1,
        Nat.add_comm ((rest.map
          (fun p => (visible_preorder_aux f t p.2).length)).sum)]

/-- C2: for every reachable tree state (a built tree with arbitrary
expansion flags), the flattened rows carry dense row indices 0..N, their
node-index sequence is exactly the spec's pre-order traversal restricted to
expanded subtrees, the root is never rendered as a row, and a node appears
in the rows if and only if it exists, is not the root, and every strict
ancestor other than the root is expanded. -/
theorem flatten_visibility_invariant (v : JVal) (flags : Nat → Bool) :
    let t := apply_flags (build_tree v) flags
    let rows := flatten_visible_nodes t
    rows.map FlatRow.row_index = List.range rows.length ∧
    rows.map FlatRow.node_index = visible_preorder t ∧
    t.root_index ∉ rows.map FlatRow.node_index ∧
    (∀ n, n ∈ rows.map FlatRow.node_index ↔
      (n < t.node_count ∧ n ≠ t.root_index ∧
        ∀ a, Relation.TransGen (child_rel t) a n → a ≠ t.root_index →
          expanded_at t a)) := by
  intro t rows
  rcases hbn : build_node JsonTree.new none v 0 with ⟨bt, bi⟩
  have hbt : build_tree v = bt.set_root bi := by
    unfold build_tree
    rw [hbn]
  obtain ⟨n1, n2, n3, nex, n5, n6, n7, n8⟩ :=
    build_node_struct v JsonTree.new none 0 bt bi hbn
  obtain ⟨cs, hre, hcs⟩ := nex
  have hzero : JsonTree.new.nodes.length = 0 := rfl
  rw [hzero] at n1 n2
  have ht : t = apply_flags (bt.set_root bi) flags := by
    show apply_flags (build_tree v) flags = _
    rw [hbt]
  have hroot_t : t.root_index = bi := by rw [ht]; rfl
  have hlen_t : t.nodes.length = bt.nodes.length := by
    rw [ht]
    exact apply_flags_length (bt.set_root bi) flags
  have hget_t : ∀ j, t.get_node j =
      (bt.get_node j).map (fun nd => { nd with expanded := flags j }) := by
    intro j
    rw [ht]
    exact apply_flags_get (bt.set_root bi) flags j
  have hchild_t : ∀ p n, child_rel t p n ↔ child_rel bt p n := by
    intro p n
    rw [ht]
    exact apply_flags_child_rel (bt.set_root bi) flags p n
  have hgood0 : good_tree JsonTree.new := by
    constructor
    · rintro p n ⟨node, hg, _⟩
      simp [JsonTree.new, JsonTree.get_node] at hg
    · rintro p1 p2 n ⟨node, hg, _⟩ _
      simp [JsonTree.new, JsonTree.get_node] at hg
  have hgood : good_tree bt := n6 hgood0
  have hlt_t : ∀ p n, child_rel t p n → n < p :=
    fun p n h => hgood.1 p n ((hchild_t p n).mp h)
  have huniq_t : ∀ p1 p2 n, child_rel t p1 n → child_rel t p2 n → p1 = p2 :=
    fun p1 p2 n h1 h2 =>
      hgood.2 p1 p2 n ((hchild_t p1 n).mp h1) ((hchild_t p2 n).mp h2)
  have hrootget : t.get_node t.root_index =
      some ⟨none, kind_of v, 0, cs, flags bi⟩ := by
    rw [hroot_t, hget_t bi, hre]
    rfl
  have hrootchild : ∀ c, child_rel t bi c ↔ c ∈ cs := by
    intro c
    constructor
    · rintro ⟨node, hg, hc⟩
      rw [← hroot_t] at hg  
      rw [hrootget] at hg
      obtain rfl := Option.some.inj hg
      exact hc
    · intro hc
      exact ⟨_, by rw [← hroot_t]; exact hrootget, hc⟩
  have hpar : ∀ n, n < bi → ∃ p, child_rel t p n := by
    intro n hn
    obtain ⟨p, hp⟩ := n7 n (Nat.zero_le n) hn
    exact ⟨p, (hchild_t p n).mpr hp⟩
  have hnp : ¬ ∃ p, child_rel t p bi := by
    rintro ⟨p, hp⟩
    have h1 := hlt_t p bi hp
    have h2 := child_rel_parent_lt t p bi hp
    omega
  have hna : ∀ a, ¬ Relation.TransGen (child_rel t) a bi := by
    intro a ha
    obtain ⟨b, _, hb⟩ := Relation.TransGen.tail'_iff.mp ha
    exact hnp ⟨b, hb⟩
  have hcount : t.node_count = bi + 1 := by
    show t.nodes.length = bi + 1
    omega
  have hA : rows.map FlatRow.node_index = visible_preorder t := by
    show (flatten_visible_nodes t).map FlatRow.node_index = visible_preorder t
    unfold flatten_visible_nodes visible_preorder
    rw [hrootget]
    dsimp only
    rw [foldl_flatten_node_indices t.node_count t _
      (fun acc p => flatten_node_indices t.node_count t p.2 acc _ _ false _) _ _]
    rw [show (fun (p : Nat × Nat) => visible_preorder_aux t.node_count t p.2) =
          (visible_preorder_aux t.node_count t) ∘ Prod.snd from rfl,
      ← List.map_map, List.enum_map_snd]
    simp
  have hvis_mem : ∀ n, n ∈ visible_preorder t ↔
      ∃ c ∈ cs, n ∈ visible_preorder_aux t.node_count t c := by
    intro n
    unfold visible_preorder
    rw [hrootget]
    dsimp only
    rw [List.mem_flatten]
    constructor
    · rintro ⟨lst, hlst, hnl⟩
      obtain ⟨c, hc, rfl⟩ := List.mem_map.mp hlst
      exact ⟨c, hc, hnl⟩
    · rintro ⟨c, hc, hnl⟩
      exact ⟨_, List.mem_map_of_mem _ hc, hnl⟩
  have hcsbound : ∀ c ∈ cs, c < bi := fun c hc => (hcs c hc).2
  refine ⟨?_, hA, ?_, ?_⟩
  · -- dense row indices
    show (flatten_visible_nodes t).map FlatRow.row_index =
      List.range (flatten_visible_nodes t).length
    unfold flatten_visible_nodes
    rw [hrootget]
    dsimp only
    rw [foldl_flatten_row_indices t.node_count t _
      (fun acc p => flatten_node_row_indices t.node_count t p.2 acc _ _ false _)
      (fun acc p => flatten_node_length t.node_count t p.2 acc _ _ false _) _ _]
    have hlenfold : ∀ (l : List (Nat × Nat)) (rows' : List FlatRow),
        (l.foldl (fun acc p =>
          flatten_node t.node_count t p.2 acc "" (decide (p.1 = cs.length - 1))
            false (if (match kind_of v with
              | JsonValue.array => true
              | _ => false) then "[" ++ toString p.1 ++ "]"
              else match t.get_node p.2 with
                | some child => child.key.getD ""
                | none => "")) rows').length =
          rows'.length +
            ((l.map (fun p => (visible_preorder_aux t.node_count t p.2).length)).sum) := by
      intro l
      induction l with
      | nil => intro rows'; simp
      | cons p rest ih2 =>
          intro rows'
          simp only [List.foldl_cons, List.map_cons, List.sum_cons]
          rw [ih2, flatten_node_length]
          omega
    rw [hlenfold]
    simp [List.range_eq_range']
  · -- root never a row
    rw [hA, hroot_t]
    intro hmem
    obtain ⟨c, hc, hnl⟩ := (hvis_mem bi).mp hmem
    have hcb := hcsbound c hc
    obtain ⟨hv, _⟩ := (visible_preorder_aux_mem t hlt_t t.node_count c bi
      (by omega)).mp hnl
    have := visFrom_le t hlt_t c bi hv
    omega
  · -- the visibility iff
    intro n
    rw [hA, hvis_mem n, hroot_t]
    constructor
    · rintro ⟨c, hc, hnl⟩
      have hcb := hcsbound c hc
      obtain ⟨hv, node', hn'⟩ := (visible_preorder_aux_mem t hlt_t t.node_count
        c n (by omega)).mp hnl
      have hnlen : n < t.nodes.length := (List.getElem?_eq_some_iff.mp hn').1
      have hnle := visFrom_le t hlt_t c n hv
      refine ⟨by omega, by omega, ?_⟩
      intro a ha hane
      rcases transGen_of_visFrom t hlt_t huniq_t c n hv a ha with h1 | h2
      · rcases transGen_peel t huniq_t a c bi h1
          ((hrootchild c).mpr hc) with rfl | h3
        · exact absurd rfl hane
        · exact absurd h3 (hna a)
      · exact visFrom_expanded t a n h2.1 h2.2
    · rintro ⟨hn1, hn2, hanc⟩
      have hnbi : n < bi := by omega
      have hclimb : ∀ (k n : Nat), n < bi → bi - n ≤ k →
          (∀ a, Relation.TransGen (child_rel t) a n → a ≠ bi →
            expanded_at t a) →
          ∃ c, c ∈ cs ∧ VisFrom t c n := by
        intro k
        induction k with
        | zero => intro n h1 h2 _; omega
        | succ k ihk =>
            intro n h1 h2 hanc2
            obtain ⟨p, hp⟩ := hpar n h1
            have hnp2 : n < p := hlt_t p n hp
            have hple : p < t.nodes.length := child_rel_parent_lt t p n hp
            by_cases hpbi : p = bi
            · subst hpbi
              exact ⟨n, (hrootchild n).mp hp, VisFrom.refl n⟩
            · have hplt : p < bi := by omega
              have hanc3 : ∀ a, Relation.TransGen (child_rel t) a p →
                  a ≠ bi → expanded_at t a :=
                fun a ha hne => hanc2 a (ha.tail hp) hne
              obtain ⟨c, hcmem, hvc⟩ := ihk p hplt (by omega) hanc3
              have hexp_p : expanded_at t p :=
                hanc2 p (Relation.TransGen.single hp) hpbi
              exact ⟨c, hcmem, visFrom_snoc t c p n hvc hp hexp_p⟩
      obtain ⟨c, hcmem, hv⟩ := hclimb bi n hnbi (by omega) hanc
      refine ⟨c, hcmem, ?_⟩
      apply (visible_preorder_aux_mem t hlt_t t.node_count c n ?_).mpr
      · refine ⟨hv, ?_⟩
        have hnlen : n < t.nodes.length := by
          have : t.nodes.length = bi + 1 := hcount
          omega
        exact ⟨t.nodes[n], List.getElem?_eq_getElem hnlen⟩
      · have := hcsbound c hcmem
        omega
